import Mathlib

/-!
Verification of the APSP engine (Questão 2/floyd.py) and the synthetic
graph generator suite (Questão 3/GeradorDeGrafos.py).

Modelling conventions, used throughout:
* Python `float('inf')` together with the finite edge weights is modelled by
  `EInt` (an integer or `inf`); the only float operations the engine performs
  on distances are `+` and `<`, and no NaN or `-inf` can arise, so the model
  is exact on every run the engine makes.
* Python floats produced by `random.random()` / `random.uniform` and the
  fractions `0.15`, `0.05` etc. are modelled as exact rationals (`ℚ`);
  `int(...)` truncation on non-negative values is rational floor.
* `random.Random(seed)` is a deterministic pseudo-random stream determined by
  the seed.  It is modelled abstractly: each function that consumes
  randomness takes the draws it makes (a shuffle outcome, a sample outcome,
  a stream of unit-interval rationals) as explicit parameters in place of the
  seed, so "for every seed" becomes "for every possible outcome of the
  draws".
* Python lists are Lean lists; `list[i]` is modelled by `List.getD` /
  `List.get?` (with an explicit error outcome where an IndexError matters);
  `list.set` models item assignment.
* while-loops without a structural bound carry explicit fuel; lemmas show the
  fuel used is sufficient wherever the source terminates.
* The one irrational-valued float expression (the default-radius heuristic of
  `random_geometric_graph`) is taken as an explicit parameter, quantified in
  every theorem about that path, in the same way as the random draws.
-/

/-- Extended integers: the value space of the distance matrix
(`float('inf')` plus the integer weights). -/
inductive EInt where
  | fin (z : Int)
  | inf
deriving DecidableEq, Repr

/-- Python `+` on distances: infinity absorbs (no `-inf` ever arises). -/
def EInt.add : EInt → EInt → EInt
  | .fin a, .fin b => .fin (a + b)
  | _, _ => .inf

/-- Python `<` on distances as a Bool. -/
def EInt.blt : EInt → EInt → Bool
  | .fin a, .fin b => a < b
  | .fin _, .inf => true
  | .inf, _ => false

/-- Read `m[i][j]` with a default (used only where the source cannot go out
of bounds). -/
def get2 {α : Type} (m : List (List α)) (i j : Nat) (d : α) : α :=
  (m.getD i []).getD j d

/-- Write `m[i][j] = x`. -/
def set2 {α : Type} (m : List (List α)) (i j : Nat) (x : α) : List (List α) :=
  m.set i ((m.getD i []).set j x)

/-- Read `m[i][j]`, `none` when the subscript would raise IndexError. -/
def lookup2 {α : Type} (m : List (List α)) (i j : Nat) : Option α :=
  m[i]?.bind fun row => row[j]?

/-- Stable insertion of an element into an ascending list. -/
def insertAsc (x : Int) : List Int → List Int
  | [] => [x]
  | y :: ys => if x ≤ y then x :: y :: ys else y :: insertAsc x ys

/-- Python `sorted` on integer labels. -/
def sortAsc (l : List Int) : List Int := l.foldr insertAsc []

/-- Modelled from the spec: the external Graph container (grafo.py is not part
of the sources).  The engine only reads it: vertex enumeration and edge
enumeration with endpoints and weight, both in insertion order (the spec fixes
edge enumeration order as insertion order).  Vertices are identified by their
integer labels. -/
structure PyGraph where
  directed : Bool
  verts : List Int
  edgesL : List (Int × Int × Int)
deriving Repr

/-- floyd.py `criar_grafo`: insert the named vertices, then insert each edge
whose two endpoints are known, skipping (with a printed warning) the rest. -/
def criar_grafo (vertices_nomes : List Int) (arestas_dados : List (Int × Int × Int))
    (direcionado : Bool) : PyGraph :=
  { directed := direcionado
    verts := vertices_nomes
    edgesL := arestas_dados.filter fun e =>
      decide (e.1 ∈ vertices_nomes) && decide (e.2.1 ∈ vertices_nomes) }

/-- Matrix initialisation of `floyd_warshall`: all-infinity / all-unset
matrices, then `dist[i][i] = 0` and `prox[i][i] = i`. -/
def floydInit (n : Nat) : List (List EInt) × List (List (Option Nat)) :=
  ((List.range n).foldl (fun m i => set2 m i i (EInt.fin 0))
    (List.replicate n (List.replicate n EInt.inf)),
   (List.range n).foldl (fun m i => set2 m i i (some i))
    (List.replicate n (List.replicate n (none : Option Nat))))

/-- Edge seeding of `floyd_warshall`: fold over `g.edges()` in enumeration
order, replacing only on strict `<`. -/
def floydSeed (vertices : List Int) (es : List (Int × Int × Int))
    (st : List (List EInt) × List (List (Option Nat))) :
    List (List EInt) × List (List (Option Nat)) :=
  es.foldl
    (fun st e =>
      let i := vertices.indexOf e.1
      let j := vertices.indexOf e.2.1
      if (EInt.fin e.2.2).blt (get2 st.1 i j EInt.inf) then
        (set2 st.1 i j (EInt.fin e.2.2), set2 st.2 i j (some j))
      else st) st

/-- The two inner loops (over i and j) of the relaxation for a fixed k;
updates read the partially-updated matrix, and `prox[i][j]` is set to
`prox[i][k]`. -/
def floydRelaxInner (n k : Nat)
    (st : List (List EInt) × List (List (Option Nat))) :
    List (List EInt) × List (List (Option Nat)) :=
  (List.range n).foldl (fun st i =>
    (List.range n).foldl (fun st j =>
      let custo := (get2 st.1 i k EInt.inf).add (get2 st.1 k j EInt.inf)
      if custo.blt (get2 st.1 i j EInt.inf) then
        (set2 st.1 i j custo, set2 st.2 i j (get2 st.2 i k none))
      else st) st) st

/-- The outer relaxation loop over k. -/
def floydRelax (n : Nat) (st : List (List EInt) × List (List (Option Nat))) :
    List (List EInt) × List (List (Option Nat)) :=
  (List.range n).foldl (fun st k => floydRelaxInner n k st) st

/-- floyd.py `floyd_warshall`: canonical ordering by sorted label, matrix
initialisation, edge seeding in enumeration order with strict `<`, and the
triple relaxation loop.  Returns (dist, prox, vertices). -/
def floyd_warshall (g : PyGraph) :
    List (List EInt) × List (List (Option Nat)) × List Int :=
  let vertices := sortAsc g.verts
  let n := vertices.length
  let relaxed := floydRelax n (floydSeed vertices g.edgesL (floydInit n))
  (relaxed.1, relaxed.2, vertices)

/-- The diagonal scan at the end of `floyd_warshall`: the labels for which a
negative-cycle alert is printed. -/
def negCycleLabels (dist : List (List EInt)) (vertices : List Int) : List Int :=
  ((List.range vertices.length).filter
    (fun i => (get2 dist i i EInt.inf).blt (EInt.fin 0))).map
    (fun i => vertices.getD i 0)

/-- Observable outcome of `reconstruir_caminho_floyd`: the Python function
returns either the tuple `(None, float('inf'))` (left summand) or a bare list
of labels (right summand); `err` is an uncaught IndexError and `spin` a
while-loop that never exits (modelled by fuel exhaustion). -/
inductive ReconOutcome where
  | ret (v : (Option (List Int) × EInt) ⊕ List Int)
  | err
  | spin
deriving DecidableEq, Repr

/-- The while-loop of `reconstruir_caminho_floyd`: append the current label,
step to `prox[atual][j]`, bail out with `(None, inf)` on an unset next hop. -/
def reconLoop (prox : List (List (Option Nat))) (vertices : List Int) (j : Nat) :
    Nat → Nat → List Int → ReconOutcome
  | 0, _, _ => .spin
  | fuel + 1, atual, caminho =>
    if atual = j then
      match vertices[j]? with
      | none => .err
      | some lj => .ret (.inr (caminho ++ [lj]))
    else
      match vertices[atual]? with
      | none => .err
      | some la =>
        match lookup2 prox atual j with
        | none => .err
        | some none => .ret (.inl (none, EInt.inf))
        | some (some nxt) => reconLoop prox vertices j fuel nxt (caminho ++ [la])

/-- floyd.py `reconstruir_caminho_floyd`: pre-check `prox[i][j]`, then the
walk.  `fuel` bounds the while-loop (the source has no bound). -/
def reconstruir_caminho_floyd (i j : Nat) (prox : List (List (Option Nat)))
    (vertices : List Int) (fuel : Nat) : ReconOutcome :=
  match lookup2 prox i j with
  | none => .err
  | some none => .ret (.inl (none, EInt.inf))
  | some (some _) => reconLoop prox vertices j fuel i []

/-- Bounds for a next-hop matrix: an n×n matrix whose set entries are
canonical indices below n (what `floyd_warshall` produces for n vertices). -/
def ProxWF (n : Nat) (prox : List (List (Option Nat))) : Prop :=
  prox.length = n ∧ ∀ row ∈ prox, row.length = n ∧
    ∀ e ∈ row, ∀ k, e = some k → k < n

instance optionBoundDecidable (n : Nat) :
    (o : Option Nat) → Decidable (∀ k, o = some k → k < n)
  | none => isTrue (by simp)
  | some m =>
    if h : m < n then isTrue (by simpa using h) else isFalse (by simpa using h)

instance proxWFDecidable (n : Nat) (prox : List (List (Option Nat))) :
    Decidable (ProxWF n prox) := by
  unfold ProxWF
  infer_instance

/-- A concrete well-formed next-hop matrix exercising both no-path returns
(an unset entry met up front at (1,0), and one met mid-walk from 0 to 2). -/
def demoProx : List (List (Option Nat)) :=
  [[some 0, some 1, some 1], [none, some 1, none], [some 2, some 2, some 2]]

/-! The concrete scenario of the `__main__` block of floyd.py. -/

def c1_vertices : List Int := [1, 2, 3, 4, 5, 6]

def c1_arestas : List (Int × Int × Int) :=
  [(1, 2, 2), (3, 1, -4), (3, 2, 3), (3, 4, -7), (4, 1, 2),
   (5, 3, 10), (5, 4, 5), (5, 6, 4), (6, 1, 5), (6, 4, 1)]

def c1_graph : PyGraph := criar_grafo c1_vertices c1_arestas true

def c1_fw : List (List EInt) × List (List (Option Nat)) × List Int :=
  floyd_warshall c1_graph

/-- The distance matrix right after edge seeding on the concrete graph. -/
def c1dA : List (List EInt) :=
  [[EInt.fin 0, EInt.fin 2, EInt.inf, EInt.inf, EInt.inf, EInt.inf],
   [EInt.inf, EInt.fin 0, EInt.inf, EInt.inf, EInt.inf, EInt.inf],
   [EInt.fin (-4), EInt.fin 3, EInt.fin 0, EInt.fin (-7), EInt.inf, EInt.inf],
   [EInt.fin 2, EInt.inf, EInt.inf, EInt.fin 0, EInt.inf, EInt.inf],
   [EInt.inf, EInt.inf, EInt.fin 10, EInt.fin 5, EInt.fin 0, EInt.fin 4],
   [EInt.fin 5, EInt.inf, EInt.inf, EInt.fin 1, EInt.inf, EInt.fin 0]]

/-- The next-hop matrix right after edge seeding on the concrete graph. -/
def c1pA : List (List (Option Nat)) :=
  [[some 0, some 1, none, none, none, none],
   [none, some 1, none, none, none, none],
   [some 0, some 1, some 2, some 3, none, none],
   [some 0, none, none, some 3, none, none],
   [none, none, some 2, some 3, some 4, some 5],
   [some 0, none, none, some 3, none, some 5]]

/-- The distance matrix after the k = 0 (and k = 1) relaxation rounds. -/
def c1dB : List (List EInt) :=
  [[EInt.fin 0, EInt.fin 2, EInt.inf, EInt.inf, EInt.inf, EInt.inf],
   [EInt.inf, EInt.fin 0, EInt.inf, EInt.inf, EInt.inf, EInt.inf],
   [EInt.fin (-4), EInt.fin (-2), EInt.fin 0, EInt.fin (-7), EInt.inf, EInt.inf],
   [EInt.fin 2, EInt.fin 4, EInt.inf, EInt.fin 0, EInt.inf, EInt.inf],
   [EInt.inf, EInt.inf, EInt.fin 10, EInt.fin 5, EInt.fin 0, EInt.fin 4],
   [EInt.fin 5, EInt.fin 7, EInt.inf, EInt.fin 1, EInt.inf, EInt.fin 0]]

/-- The next-hop matrix after the k = 0 (and k = 1) relaxation rounds. -/
def c1pB : List (List (Option Nat)) :=
  [[some 0, some 1, none, none, none, none],
   [none, some 1, none, none, none, none],
   [some 0, some 0, some 2, some 3, none, none],
   [some 0, some 0, none, some 3, none, none],
   [none, none, some 2, some 3, some 4, some 5],
   [some 0, some 0, none, some 3, none, some 5]]

/-- The distance matrix after the k = 2 relaxation round. -/
def c1dC : List (List EInt) :=
  [[EInt.fin 0, EInt.fin 2, EInt.inf, EInt.inf, EInt.inf, EInt.inf],
   [EInt.inf, EInt.fin 0, EInt.inf, EInt.inf, EInt.inf, EInt.inf],
   [EInt.fin (-4), EInt.fin (-2), EInt.fin 0, EInt.fin (-7), EInt.inf, EInt.inf],
   [EInt.fin 2, EInt.fin 4, EInt.inf, EInt.fin 0, EInt.inf, EInt.inf],
   [EInt.fin 6, EInt.fin 8, EInt.fin 10, EInt.fin 3, EInt.fin 0, EInt.fin 4],
   [EInt.fin 5, EInt.fin 7, EInt.inf, EInt.fin 1, EInt.inf, EInt.fin 0]]

/-- The next-hop matrix after the k = 2 relaxation round. -/
def c1pC : List (List (Option Nat)) :=
  [[some 0, some 1, none, none, none, none],
   [none, some 1, none, none, none, none],
   [some 0, some 0, some 2, some 3, none, none],
   [some 0, some 0, none, some 3, none, none],
   [some 2, some 2, some 2, some 2, some 4, some 5],
   [some 0, some 0, none, some 3, none, some 5]]

/-- The final distance matrix (stable from the k = 3 round on). -/
def c1dD : List (List EInt) :=
  [[EInt.fin 0, EInt.fin 2, EInt.inf, EInt.inf, EInt.inf, EInt.inf],
   [EInt.inf, EInt.fin 0, EInt.inf, EInt.inf, EInt.inf, EInt.inf],
   [EInt.fin (-5), EInt.fin (-3), EInt.fin 0, EInt.fin (-7), EInt.inf, EInt.inf],
   [EInt.fin 2, EInt.fin 4, EInt.inf, EInt.fin 0, EInt.inf, EInt.inf],
   [EInt.fin 5, EInt.fin 7, EInt.fin 10, EInt.fin 3, EInt.fin 0, EInt.fin 4],
   [EInt.fin 3, EInt.fin 5, EInt.inf, EInt.fin 1, EInt.inf, EInt.fin 0]]

/-- The final next-hop matrix (stable from the k = 3 round on). -/
def c1pD : List (List (Option Nat)) :=
  [[some 0, some 1, none, none, none, none],
   [none, some 1, none, none, none, none],
   [some 3, some 3, some 2, some 3, none, none],
   [some 0, some 0, none, some 3, none, none],
   [some 2, some 2, some 2, some 2, some 4, some 5],
   [some 3, some 3, none, some 3, none, some 5]]

/-! Definitions for the generator suite (Questão 3/GeradorDeGrafos.py). -/

/-- Python error conditions that the generator module can surface. -/
inductive PyErr where
  | zeroDivisionError
  | valueError
deriving DecidableEq, Repr

/-- Helper scan for `ceilSqrt`: the first k (from the start value up) with
n ≤ k * k. -/
def ceilSqrtAux (n : Nat) : Nat → Nat → Nat
  | 0, k => k
  | fuel + 1, k => if n ≤ k * k then k else ceilSqrtAux n fuel (k + 1)

/-- math.ceil(math.sqrt n) on a natural argument, modelled exactly: the least
k with n ≤ k * k (structurally recursive so that concrete runs reduce). -/
def ceilSqrt (n : Nat) : Nat := ceilSqrtAux n (n + 1) 0

/-- Helper scan for `ceilLog2`: the first d (from the start value up) with
n ≤ 2 ^ d. -/
def ceilLog2Aux (n : Nat) : Nat → Nat → Nat
  | 0, d => d
  | fuel + 1, d => if n ≤ 2 ^ d then d else ceilLog2Aux n fuel (d + 1)

/-- math.ceil(math.log2 n) for n ≥ 1, modelled exactly: the least d with
n ≤ 2 ^ d. -/
def ceilLog2 (n : Nat) : Nat := ceilLog2Aux n n 0

instance exceptDecidableEq {ε α : Type} [DecidableEq ε] [DecidableEq α] :
    DecidableEq (Except ε α)
  | .error a, .error b =>
    if h : a = b then isTrue (by rw [h]) else isFalse (by simp [h])
  | .error _, .ok _ => isFalse (by simp)
  | .ok _, .error _ => isFalse (by simp)
  | .ok a, .ok b =>
    if h : a = b then isTrue (by rw [h]) else isFalse (by simp [h])

/-- math.ceil(a / b) for b > 0 (callers guard b = 0, where Python raises). -/
def ceilDiv (a b : Nat) : Nat := (a + b - 1) / b

/-- GeradorDeGrafos.py `_label`: the label of 0-based index i is the integer
i + 1. -/
def pyLabel (i : Nat) : Int := (i : Int) + 1

/-- The first n row-major cells of the ceil(sqrt n)-column lattice
(`coords = coords[:n_vertices]` in `grid_graph`, recomputed identically in
`grid_maze_like`).  Coordinates are integers so that the `c - 1` of the
diagonal test matches Python. -/
def gridCoords (n : Nat) : List (Int × Int) :=
  let cols := ceilSqrt n
  let rows := ceilDiv n cols
  (((List.range rows).flatMap fun r =>
    (List.range cols).map fun c => (Int.ofNat r, Int.ofNat c))).take n

/-- `vertices = [_label(i+1) for i in range(len(coords))]`. -/
def gridVerts (n : Nat) : List Int :=
  (List.range (gridCoords n).length).map pyLabel

/-- The edge construction of `grid_graph` (and, without diagonals, the
candidate set `possible` of `grid_maze_like`): iterate the cells with their
indices in row-major order; for each cell emit the edge to its right and
lower neighbour when present, optionally the two lower diagonals. -/
def gridPairs (n : Nat) (connect_diagonals : Bool) : List (Int × Int) :=
  let coords := gridCoords n
  coords.enum.flatMap fun p =>
    let i := p.1
    let r := p.2.1
    let c := p.2.2
    (if (r, c + 1) ∈ coords then
      [(pyLabel i, pyLabel (coords.indexOf (r, c + 1)))] else []) ++
    (if (r + 1, c) ∈ coords then
      [(pyLabel i, pyLabel (coords.indexOf (r + 1, c)))] else []) ++
    (if connect_diagonals then
      (if (r + 1, c + 1) ∈ coords then
        [(pyLabel i, pyLabel (coords.indexOf (r + 1, c + 1)))] else []) ++
      (if (r + 1, c - 1) ∈ coords then
        [(pyLabel i, pyLabel (coords.indexOf (r + 1, c - 1)))] else [])
    else [])

/-- GeradorDeGrafos.py `grid_graph`.  The seed is accepted and a generator is
constructed from it but never consumed.  For n = 0, `cols` is 0 and Python's
`math.ceil(n_vertices / cols)` raises ZeroDivisionError. -/
def grid_graph (n_vertices seed : Nat) (connect_diagonals : Bool) :
    Except PyErr (List Int × List (Int × Int)) :=
  let cols := ceilSqrt n_vertices
  if cols = 0 then Except.error PyErr.zeroDivisionError
  else Except.ok (gridVerts n_vertices, gridPairs n_vertices connect_diagonals)

/-- The `find` of `grid_maze_like`, with path halving
(`parent[a] = parent[parent[a]]`) and the state threaded explicitly; the
unbounded while-loop carries fuel (n suffices on every reachable state, and
out-of-range reads—impossible in the source's uses—default to a self-root). -/
def pyFind : Nat → List Nat → Nat → List Nat × Nat
  | 0, parent, a => (parent, a)
  | fuel + 1, parent, a =>
    let pa := parent.getD a a
    if pa = a then (parent, a)
    else
      let gpa := parent.getD pa pa
      pyFind fuel (parent.set a gpa) gpa

/-- The `union` of `grid_maze_like`: `parent[find(a)] = find(b)`. -/
def pyUnion (fuel : Nat) (parent : List Nat) (a b : Nat) : List Nat :=
  let s1 := pyFind fuel parent a
  let s2 := pyFind fuel s1.1 b
  s2.1.set s1.2 s2.2

/-- One iteration of the spanning-tree loop: `ui = int(u) - 1`,
`vi = int(v) - 1`; keep the edge and unite exactly when the roots differ.
(Labels are 1-based throughout the source, so the subtraction stays in ℕ.) -/
def ufStep (n : Nat) (st : List Nat × List (Int × Int)) (e : Int × Int) :
    List Nat × List (Int × Int) :=
  let ui := (e.1 - 1).toNat
  let vi := (e.2 - 1).toNat
  let s1 := pyFind n st.1 ui
  let s2 := pyFind n s1.1 vi
  if s2.2 ≠ s1.2 then (pyUnion n s2.1 ui vi, st.2 ++ [e])
  else (s2.1, st.2)

/-- The spanning-tree fold of `grid_maze_like` over the shuffled candidates,
starting from `parent = list(range(n))` and an empty edge list. -/
def ufFold (n : Nat) (es : List (Int × Int)) : List Nat × List (Int × Int) :=
  es.foldl (ufStep n) (List.range n, [])

/-- The candidate set `possible` of `grid_maze_like` (the grid's
right/down pairs, recomputed from n). -/
def mazePossible (n : Nat) : List (Int × Int) := gridPairs n false

/-- The spanning-tree edges selected by the union-find phase, given the
shuffle outcome `sh1` applied to the candidate list. -/
def mazeTreeEdges (n : Nat) (sh1 : List (Int × Int) → List (Int × Int)) :
    List (Int × Int) :=
  (ufFold n (sh1 (mazePossible n))).2

/-- `extras = int(0.15 * len(possible))`, the float product and truncation
modelled as exact rational arithmetic. -/
def mazeExtras (n : Nat) : Nat := 15 * (mazePossible n).length / 100

/-- `candidates = [e for e in possible if e not in edges and (e[1], e[0])
not in edges]` with `edges` the spanning-tree edges. -/
def mazeCandidates (n : Nat) (sh1 : List (Int × Int) → List (Int × Int)) :
    List (Int × Int) :=
  (mazePossible n).filter fun e =>
    decide (e ∉ mazeTreeEdges n sh1) && decide ((e.2, e.1) ∉ mazeTreeEdges n sh1)

/-- GeradorDeGrafos.py `grid_maze_like`: grid vertices, spanning tree over
the shuffled candidate edges via union-find, then the first
`int(0.15 * len(possible))` of the shuffled remaining candidates re-added.
`sh1` and `sh2` are the outcomes of the two seeded `rnd.shuffle` calls. -/
def grid_maze_like (n_vertices seed : Nat)
    (sh1 sh2 : List (Int × Int) → List (Int × Int)) :
    Except PyErr (List Int × List (Int × Int)) := do
  let (vertices, _) ← grid_graph n_vertices seed false
  let n := vertices.length
  Except.ok (vertices,
    mazeTreeEdges n sh1 ++ (sh2 (mazeCandidates n sh1)).take (mazeExtras n))

/-- The pair loop of `random_geometric_graph`: for i < j, connect when
`dx*dx + dy*dy <= radius*radius` (floats modelled as exact rationals). -/
def rggEdges (n : Nat) (points : List (ℚ × ℚ)) (radius : ℚ) :
    List (Int × Int) :=
  (List.range n).flatMap fun i =>
    (List.range' (i + 1) (n - (i + 1))).filterMap fun j =>
      let pa := points.getD i (0, 0)
      let pb := points.getD j (0, 0)
      let dx := pa.1 - pb.1
      let dy := pa.2 - pb.2
      if dx * dx + dy * dy ≤ radius * radius then some (pyLabel i, pyLabel j)
      else none

/-- GeradorDeGrafos.py `random_geometric_graph`.  `pts` is the seeded stream
of `rnd.random()` draws (point i is `(pts (2i), pts (2i+1))`).  When
`radius = None` the source computes the heuristic
`1.5 * math.sqrt(max(1e-9, math.log(max(2, n)) / (math.pi * n)))`: for n = 0
the division by `math.pi * 0` raises ZeroDivisionError before any radius
value exists, and for n ≥ 1 the value involves sqrt, log and π and has no
exact rational form, so — exactly like the random draws — that float value is
passed in as the explicit parameter `defRad`, and every theorem touching the
default-radius path is quantified over all its possible values. -/
def random_geometric_graph (n_vertices : Nat) (pts : Nat → ℚ)
    (radius : Option ℚ) (defRad : ℚ) :
    Except PyErr (List Int × List (Int × Int)) :=
  let points := (List.range n_vertices).map fun i => (pts (2 * i), pts (2 * i + 1))
  match radius with
  | none =>
    if n_vertices = 0 then Except.error PyErr.zeroDivisionError
    else Except.ok ((List.range n_vertices).map pyLabel,
      rggEdges n_vertices points defRad)
  | some r =>
    Except.ok ((List.range n_vertices).map pyLabel, rggEdges n_vertices points r)

/-- Neighbour list of the adjacency dict built by `hypercube_graph` (edges
read in both directions; only the set of neighbours is ever observable
through the BFS visited set). -/
def nbrs (edges : List (Int × Int)) (x : Int) : List Int :=
  (edges.filterMap fun e => if e.1 = x then some e.2 else none) ++
  (edges.filterMap fun e => if e.2 = x then some e.1 else none)

/-- The neighbour scan of the BFS body: an unvisited neighbour is added to
the visited set and appended to the queue. -/
def bfsVisit (st : List Int × List Int) (nb : Int) : List Int × List Int :=
  if nb ∈ st.1 then st else (st.1 ++ [nb], st.2 ++ [nb])

/-- The BFS of `hypercube_graph`: pop the queue head, append unvisited
neighbours to the visited set and the queue.  Fuel bounds the while-loop;
`2 * |vertices| + 2` is proved sufficient. -/
def bfsLoop (adjf : Int → List Int) : Nat → List Int → List Int → List Int
  | 0, _, visited => visited
  | _ + 1, [], visited => visited
  | fuel + 1, x :: q, visited =>
    let st := (adjf x).foldl bfsVisit (visited, q)
    bfsLoop adjf fuel st.2 st.1

/-- Reachability through a neighbour function. -/
def NReach (adjf : Int → List Int) : Int → Int → Prop :=
  Relation.ReflTransGen (fun a b => b ∈ adjf a)

/-- The label of survivor b: its position in the survivor list, plus one
(`index_map[b] = i + 1`). -/
def hcLabel (vb : List Nat) (b : Nat) : Int := pyLabel (vb.indexOf b)

/-- The edge loop of `hypercube_graph`: for each surviving corner b and bit,
connect to `nb = b xor (1 <<< bit)` when nb survives and `nb > b`. -/
def hcEdges (d : Nat) (vb : List Nat) : List (Int × Int) :=
  vb.flatMap fun b =>
    (List.range d).filterMap fun bit =>
      if b ^^^ (1 <<< bit) ∈ vb ∧ b ^^^ (1 <<< bit) > b then
        some (hcLabel vb b, hcLabel vb (b ^^^ (1 <<< bit)))
      else none

/-- The tail of `hypercube_graph` after vertex removal: relabel, build
edges, and if the BFS from the first vertex misses part of the graph keep
only the visited component. -/
def hcBuild (d : Nat) (vb : List Nat) : List Int × List (Int × Int) :=
  let vertices := vb.map (hcLabel vb)
  let edges := hcEdges d vb
  if vertices.length > 0 then
    let visited := bfsLoop (nbrs edges) (2 * vertices.length + 2)
      [vertices.getD 0 0] [vertices.getD 0 0]
    if visited.length < vertices.length then
      (vertices.filter fun v => decide (v ∈ visited),
       edges.filter fun e => decide (e.1 ∈ visited) && decide (e.2 ∈ visited))
    else (vertices, edges)
  else (vertices, edges)

/-- GeradorDeGrafos.py `hypercube_graph`.  `sample` is the seeded
`rnd.sample` oracle (population, k) ↦ chosen elements; Python raises
ValueError when k exceeds the population size. -/
def hypercube_graph (n_vertices : Nat) (sample : List Nat → Nat → List Nat) :
    Except PyErr (List Int × List (Int × Int)) :=
  let d := ceilLog2 (max 1 n_vertices)
  let N := 2 ^ d
  let vb0 := List.range N
  if N > n_vertices then
    let k := N - n_vertices
    if k > vb0.length then Except.error PyErr.valueError
    else
      let toRemove := sample vb0 k
      Except.ok (hcBuild d (vb0.filter fun v => decide (v ∉ toRemove)))
  else Except.ok (hcBuild d vb0)

/-- Python 3 `round` on a rational: nearest integer, ties to even. -/
def pyRound (q : ℚ) : Int :=
  let f := ⌊q⌋
  let frac := q - f
  if frac < 1 / 2 then f
  else if 1 / 2 < frac then f + 1
  else if f % 2 = 0 then f else f + 1

/-- `rnd.uniform a b = a + (b - a) * rnd.random()`. -/
def uniformDraw (a b t : ℚ) : ℚ := a + (b - a) * t

/-- GeradorDeGrafos.py `_assign_weights`, with the seeded stream of
`rnd.random()` draws passed explicitly (uniform mode consumes one draw per
edge, controlled mode two), floats as exact rationals. -/
def assign_weights (edges : List (Int × Int)) (stream : Nat → ℚ)
    (w_min w_max : ℚ) (controlled : Bool) (long_tail_frac : ℚ) :
    List (Int × Int × Int) :=
  (edges.foldl
    (fun (st : Nat × List (Int × Int × Int)) e =>
      if !controlled then
        let w := uniformDraw w_min w_max (stream st.1)
        (st.1 + 1, st.2 ++ [(e.1, e.2, pyRound w)])
      else
        let r := stream st.1
        let w :=
          if r < long_tail_frac then
            uniformDraw (w_max * 6 / 10 + 1) w_max (stream (st.1 + 1))
          else
            uniformDraw w_min (max (w_min + 1) (w_max * 3 / 10))
              (stream (st.1 + 1))
        (st.1 + 2, st.2 ++ [(e.1, e.2, pyRound w)]))
    (0, [])).2

/-- GeradorDeGrafos.py `build_weighted_graph`: the vertex list is passed
through unchanged. -/
def build_weighted_graph (vertices : List Int) (edges_pairs : List (Int × Int))
    (stream : Nat → ℚ) (w_min w_max : ℚ) (controlled : Bool) :
    List Int × List (Int × Int × Int) :=
  (vertices, assign_weights edges_pairs stream w_min w_max controlled (5 / 100))

/-- One entry of the dictionary built by `make_all_graphs`. -/
structure GraphEntry where
  vertices : List Int
  edges : List (Int × Int × Int)
  raw_edges : Nat
  actual_vertices : Option Nat
deriving Repr

/-- The hypercube arm of `make_all_graphs`: generate, weight, and record
`raw_edges` plus (only for this arm) `actual_vertices = len(v_h)`. -/
def make_hypercube_entry (n : Nat) (sample : List Nat → Nat → List Nat)
    (stream : Nat → ℚ) (w_min w_max : ℚ) (controlled : Bool) :
    Except PyErr GraphEntry := do
  let (v_h, e_h) ← hypercube_graph n sample
  let (vs, ws) := build_weighted_graph v_h e_h stream w_min w_max controlled
  Except.ok ⟨vs, ws, e_h.length, some v_h.length⟩

/-- Undirected adjacency through an edge list of label pairs. -/
def EdgeStep (es : List (Int × Int)) (x y : Int) : Prop :=
  (x, y) ∈ es ∨ (y, x) ∈ es

/-- Connectivity through an edge list: the reflexive-transitive closure of
`EdgeStep`. -/
def Conn (es : List (Int × Int)) : Int → Int → Prop :=
  Relation.ReflTransGen (EdgeStep es)

/-! Semantic layer for the union-find forest of `grid_maze_like`. -/

/-- Follow the parent pointers k steps (out-of-range nodes are their own
parent, matching `List.getD a a` in `pyFind`). -/
def parIter (parent : List Nat) : Nat → Nat → Nat
  | 0, a => a
  | k + 1, a => parIter parent k (parent.getD a a)

/-- A node whose parent pointer is itself. -/
def IsRoot (parent : List Nat) (a : Nat) : Prop := parent.getD a a = a

/-- The parent chain from a reaches the root r in exactly k steps. -/
def RootOfN (parent : List Nat) (a r : Nat) (k : Nat) : Prop :=
  parIter parent k a = r ∧ IsRoot parent r

/-- The parent chain from a reaches the root r. -/
def RootOf (parent : List Nat) (a r : Nat) : Prop :=
  ∃ k, RootOfN parent a r k

/-- Two nodes lie in the same union-find class. -/
def SameRoot (parent : List Nat) (a b : Nat) : Prop :=
  ∃ r, RootOf parent a r ∧ RootOf parent b r

/-- Undirected adjacency between canonical indices through a list of
label pairs (label = index + 1). -/
def IdxStep (sel : List (Int × Int)) (i j : Nat) : Prop :=
  (pyLabel i, pyLabel j) ∈ sel ∨ (pyLabel j, pyLabel i) ∈ sel

/-- Connectivity between canonical indices through a list of label pairs. -/
def IdxConn (sel : List (Int × Int)) : Nat → Nat → Prop :=
  Relation.ReflTransGen (IdxStep sel)

/-- Well-formedness of the union-find state: n entries, all below n, and
every node's parent chain reaches a root. -/
def UFInv (n : Nat) (parent : List Nat) : Prop :=
  parent.length = n ∧ (∀ x, x < n → parent.getD x 0 < n) ∧
  (∀ x, x < n → ∃ r, RootOf parent x r)

/-- The union-find state represents exactly the connectivity of the selected
edges. -/
def UFRep (n : Nat) (parent : List Nat) (sel : List (Int × Int)) : Prop :=
  UFInv n parent ∧
  ∀ i j, i < n → j < n → (SameRoot parent i j ↔ IdxConn sel i j)

/-- Every edge of the list joins two canonical indices below n (labels are
index + 1, as produced by the grid construction). -/
def SelOK (n : Nat) (es : List (Int × Int)) : Prop :=
  ∀ e ∈ es, ∃ a b, a < n ∧ b < n ∧ e = (pyLabel a, pyLabel b)

set_option maxRecDepth 4000 in
theorem c1_seed_eval :
    floydSeed [1, 2, 3, 4, 5, 6] c1_arestas (floydInit 6) = (c1dA, c1pA) := by
  decide

set_option maxRecDepth 4000 in
theorem c1_relax0 : floydRelaxInner 6 0 (c1dA, c1pA) = (c1dB, c1pB) := by
  decide

set_option maxRecDepth 4000 in
theorem c1_relax1 : floydRelaxInner 6 1 (c1dB, c1pB) = (c1dB, c1pB) := by
  decide

set_option maxRecDepth 4000 in
theorem c1_relax2 : floydRelaxInner 6 2 (c1dB, c1pB) = (c1dC, c1pC) := by
  decide

set_option maxRecDepth 4000 in
theorem c1_relax3 : floydRelaxInner 6 3 (c1dC, c1pC) = (c1dD, c1pD) := by
  decide

set_option maxRecDepth 4000 in
theorem c1_relax4 : floydRelaxInner 6 4 (c1dD, c1pD) = (c1dD, c1pD) := by
  decide

set_option maxRecDepth 4000 in
theorem c1_relax5 : floydRelaxInner 6 5 (c1dD, c1pD) = (c1dD, c1pD) := by
  decide

theorem c1_fw_eval : c1_fw = (c1dD, c1pD, [1, 2, 3, 4, 5, 6]) := by
  have hv : sortAsc c1_graph.verts = [1, 2, 3, 4, 5, 6] := by decide
  have he : c1_graph.edgesL = c1_arestas := by decide
  have h1 : c1_fw = floyd_warshall c1_graph := rfl
  rw [h1]
  simp only [floyd_warshall]
  rw [hv, he]
  rw [show ([1, 2, 3, 4, 5, 6] : List Int).length = 6 from rfl]
  rw [c1_seed_eval]
  simp only [floydRelax]
  rw [show List.range 6 = [0, 1, 2, 3, 4, 5] from rfl]
  simp only [List.foldl_cons, List.foldl_nil]
  rw [c1_relax0, c1_relax1, c1_relax2, c1_relax3, c1_relax4, c1_relax5]

/-- C1: on the concrete directed graph of floyd.py's `__main__`, the engine
prints no negative-cycle alert, the canonical indices of labels 5, 2 and 1
are 4, 1 and 0, the distance from label 5 to label 2 is 7, path
reconstruction yields the labels [5, 3, 4, 1, 2], and the diagonal entry at
label 1's index is 0. -/
theorem floyd_concrete_scenario :
    negCycleLabels c1_fw.1 c1_fw.2.2 = [] ∧
    c1_fw.2.2.indexOf 5 = 4 ∧ c1_fw.2.2.indexOf 2 = 1 ∧ c1_fw.2.2.indexOf 1 = 0 ∧
    get2 c1_fw.1 4 1 EInt.inf = EInt.fin 7 ∧
    reconstruir_caminho_floyd 4 1 c1_fw.2.1 c1_fw.2.2 6 =
      ReconOutcome.ret (Sum.inr [5, 3, 4, 1, 2]) ∧
    get2 c1_fw.1 0 0 EInt.inf = EInt.fin 0 := by
  rw [c1_fw_eval]
  decide

/-- The one-step unfolding of `reconLoop` with positive fuel. -/
theorem reconLoop_succ (prox : List (List (Option Nat))) (vertices : List Int)
    (j fuel atual : Nat) (caminho : List Int) :
    reconLoop prox vertices j (fuel + 1) atual caminho =
      if atual = j then
        match vertices[j]? with
        | none => ReconOutcome.err
        | some lj => ReconOutcome.ret (Sum.inr (caminho ++ [lj]))
      else
        match vertices[atual]? with
        | none => ReconOutcome.err
        | some la =>
          match lookup2 prox atual j with
          | none => ReconOutcome.err
          | some none => ReconOutcome.ret (Sum.inl (none, EInt.inf))
          | some (some nxt) =>
            reconLoop prox vertices j fuel nxt (caminho ++ [la]) := rfl

theorem proxWF_lookup {n : Nat} {prox : List (List (Option Nat))}
    (hp : ProxWF n prox) {i j : Nat} (hi : i < n) (hj : j < n) :
    ∃ o, lookup2 prox i j = some o ∧ ∀ k, o = some k → k < n := by
  obtain ⟨hlen, hrow⟩ := hp
  have hi' : i < prox.length := hlen ▸ hi
  have hrowmem : prox[i] ∈ prox := List.getElem_mem hi'
  obtain ⟨hrlen, hent⟩ := hrow _ hrowmem
  have hj' : j < prox[i].length := hrlen ▸ hj
  refine ⟨prox[i][j], ?_, hent _ (List.getElem_mem hj')⟩
  simp [lookup2, List.getElem?_eq_getElem hi', List.getElem?_eq_getElem hj']

theorem reconLoop_ne_err {n : Nat} {prox : List (List (Option Nat))}
    {vertices : List Int} {j : Nat} (hp : ProxWF n prox)
    (hv : vertices.length = n) (hj : j < n) :
    ∀ fuel atual caminho, atual < n →
      reconLoop prox vertices j fuel atual caminho ≠ ReconOutcome.err := by
  intro fuel
  induction fuel with
  | zero => intro atual caminho _; simp [reconLoop]
  | succ fuel ih =>
    intro atual caminho ha
    obtain ⟨xj, hvj⟩ : ∃ x, vertices[j]? = some x :=
      ⟨_, List.getElem?_eq_getElem (show j < vertices.length from hv ▸ hj)⟩
    obtain ⟨xa, hva⟩ : ∃ x, vertices[atual]? = some x :=
      ⟨_, List.getElem?_eq_getElem (show atual < vertices.length from hv ▸ ha)⟩
    obtain ⟨o, ho, hob⟩ := proxWF_lookup hp ha hj
    rw [reconLoop_succ]
    by_cases hje : atual = j
    · rw [if_pos hje, hvj]
      simp
    · rw [if_neg hje, hva]
      cases o with
      | none => rw [ho]; simp
      | some nxt =>
        rw [ho]
        exact ih nxt _ (hob nxt rfl)

theorem proxWF_entry_lt {n : Nat} {prox : List (List (Option Nat))}
    (hp : ProxWF n prox) {a j k : Nat}
    (h : lookup2 prox a j = some (some k)) : k < n := by
  obtain ⟨hlen, hrow⟩ := hp
  unfold lookup2 at h
  cases hja : prox[a]? with
  | none =>
    rw [hja] at h
    exact Option.noConfusion h
  | some row =>
    rw [hja] at h
    simp only [Option.some_bind] at h
    obtain ⟨_, hent⟩ := hrow row (List.getElem?_mem hja)
    exact hent _ (List.getElem?_mem h) k rfl

/-- If the walk of `reconstruir_caminho_floyd` meets an unset next-hop entry
after k in-bounds steps that never reach j, the loop returns the explicit
`(None, inf)` result for every fuel beyond k. -/
theorem reconLoop_unset {n : Nat} {prox : List (List (Option Nat))}
    {vertices : List Int} {j : Nat} (hp : ProxWF n prox)
    (hv : vertices.length = n) :
    ∀ k fuel (w : Nat → Nat) (caminho : List Int),
      w 0 < n →
      (∀ m, m < k → w m ≠ j ∧
        lookup2 prox (w m) j = some (some (w (m + 1)))) →
      w k ≠ j → lookup2 prox (w k) j = some none →
      k < fuel →
      reconLoop prox vertices j fuel (w 0) caminho =
        ReconOutcome.ret (Sum.inl (none, EInt.inf)) := by
  intro k
  induction k with
  | zero =>
    intro fuel w caminho h0 _ hkj hkn hk
    cases fuel with
    | zero => omega
    | succ fuel =>
      obtain ⟨la, hla⟩ : ∃ x, vertices[w 0]? = some x :=
        ⟨_, List.getElem?_eq_getElem (show w 0 < vertices.length from hv ▸ h0)⟩
      rw [reconLoop_succ, if_neg hkj, hla, hkn]
  | succ k ih =>
    intro fuel w caminho h0 hch hkj hkn hk
    cases fuel with
    | zero => omega
    | succ fuel =>
      obtain ⟨h0j, h0l⟩ := hch 0 (Nat.succ_pos k)
      obtain ⟨la, hla⟩ : ∃ x, vertices[w 0]? = some x :=
        ⟨_, List.getElem?_eq_getElem (show w 0 < vertices.length from hv ▸ h0)⟩
      rw [reconLoop_succ, if_neg h0j, hla, h0l]
      exact ih fuel (fun m => w (m + 1)) (caminho ++ [la])
        (proxWF_entry_lt hp h0l)
        (fun m hm => hch (m + 1) (by omega))
        hkj hkn (by omega)

/-- C7: with a well-formed next-hop matrix, an unset `next[i][j]` makes
`reconstruir_caminho_floyd` return the explicit no-path value `(None, inf)`;
the function never raises an IndexError; and if the walk from i meets an
unset next-hop entry before reaching j (a walk w of k steps each following a
set entry while avoiding j, whose k-th stop has an unset entry), the function
likewise terminates with the explicit `(None, inf)` no-path result for every
fuel beyond k — not an exception and not a hung loop. -/
theorem reconstruir_no_crash (n : Nat) (prox : List (List (Option Nat)))
    (vertices : List Int) (i j : Nat) (hp : ProxWF n prox)
    (hv : vertices.length = n) (hi : i < n) (hj : j < n) :
    (lookup2 prox i j = some none → ∀ fuel,
      reconstruir_caminho_floyd i j prox vertices fuel =
        ReconOutcome.ret (Sum.inl (none, EInt.inf))) ∧
    (∀ fuel, reconstruir_caminho_floyd i j prox vertices fuel ≠
      ReconOutcome.err) ∧
    (∀ (k : Nat) (w : Nat → Nat), w 0 = i →
      (∀ m, m < k → w m ≠ j ∧
        lookup2 prox (w m) j = some (some (w (m + 1)))) →
      w k ≠ j → lookup2 prox (w k) j = some none →
      ∀ fuel, k < fuel →
        reconstruir_caminho_floyd i j prox vertices fuel =
          ReconOutcome.ret (Sum.inl (none, EInt.inf))) := by
  refine ⟨?_, ?_, ?_⟩
  · intro h fuel
    simp [reconstruir_caminho_floyd, h]
  · intro fuel
    obtain ⟨o, ho, hob⟩ := proxWF_lookup hp hi hj
    cases o with
    | none => simp [reconstruir_caminho_floyd, ho]
    | some k =>
      simp only [reconstruir_caminho_floyd, ho]
      exact reconLoop_ne_err hp hv hj fuel i [] hi
  · intro k w hw0 hch hkj hkn fuel hk
    cases k with
    | zero =>
      rw [hw0] at hkn
      simp [reconstruir_caminho_floyd, hkn]
    | succ k =>
      obtain ⟨h0j, h0l⟩ := hch 0 (Nat.succ_pos k)
      have h0l' := h0l
      rw [hw0] at h0l'
      simp only [reconstruir_caminho_floyd, h0l']
      have hres := reconLoop_unset hp hv (k + 1) fuel w []
        (by rw [hw0]; exact hi) hch hkj hkn hk
      rw [hw0] at hres
      exact hres

theorem reconstruir_no_crash_witness :
    reconstruir_caminho_floyd 1 0 demoProx [10, 20, 30] 5 =
      ReconOutcome.ret (Sum.inl (none, EInt.inf)) ∧
    reconstruir_caminho_floyd 0 2 demoProx [10, 20, 30] 5 ≠
      ReconOutcome.err ∧
    reconstruir_caminho_floyd 0 2 demoProx [10, 20, 30] 5 =
      ReconOutcome.ret (Sum.inl (none, EInt.inf)) :=
  ⟨(reconstruir_no_crash 3 demoProx [10, 20, 30] 1 0 (by decide) (by decide)
      (by decide) (by decide)).1 (by decide) 5,
   (reconstruir_no_crash 3 demoProx [10, 20, 30] 0 2 (by decide) (by decide)
      (by decide) (by decide)).2.1 5,
   (reconstruir_no_crash 3 demoProx [10, 20, 30] 0 2 (by decide) (by decide)
      (by decide) (by decide)).2.2 1 (fun m => if m = 0 then 0 else 1)
      (by decide) (by decide) (by decide) (by decide) 5 (by decide)⟩

theorem reconLoop_shape (prox : List (List (Option Nat))) (vertices : List Int)
    (j : Nat) : ∀ fuel atual caminho,
    reconLoop prox vertices j fuel atual caminho =
        ReconOutcome.ret (Sum.inl (none, EInt.inf)) ∨
    (∃ l, reconLoop prox vertices j fuel atual caminho =
        ReconOutcome.ret (Sum.inr l)) ∨
    reconLoop prox vertices j fuel atual caminho = ReconOutcome.err ∨
    reconLoop prox vertices j fuel atual caminho = ReconOutcome.spin := by
  intro fuel
  induction fuel with
  | zero => intro atual caminho; simp [reconLoop]
  | succ fuel ih =>
    intro atual caminho
    rw [reconLoop_succ]
    by_cases hje : atual = j
    · rw [if_pos hje]
      cases vertices[j]? with
      | none => simp
      | some lj => exact Or.inr (Or.inl ⟨caminho ++ [lj], rfl⟩)
    · rw [if_neg hje]
      cases vertices[atual]? with
      | none => simp
      | some la =>
        cases lookup2 prox atual j with
        | none => simp
        | some o =>
          cases o with
          | none => simp
          | some nxt => exact ih nxt (caminho ++ [la])

/-- C10: the public result of `reconstruir_caminho_floyd` is asymmetric:
every no-path report is exactly the tuple `(None, float('inf'))` (left
summand) and every success is a bare list of labels (right summand) with no
cost attached; besides those two shapes only an IndexError or a
non-terminating walk is possible. -/
theorem reconstruir_result_shape (i j : Nat) (prox : List (List (Option Nat)))
    (vertices : List Int) (fuel : Nat) :
    reconstruir_caminho_floyd i j prox vertices fuel =
        ReconOutcome.ret (Sum.inl (none, EInt.inf)) ∨
    (∃ l, reconstruir_caminho_floyd i j prox vertices fuel =
        ReconOutcome.ret (Sum.inr l)) ∨
    reconstruir_caminho_floyd i j prox vertices fuel = ReconOutcome.err ∨
    reconstruir_caminho_floyd i j prox vertices fuel = ReconOutcome.spin := by
  cases ho : lookup2 prox i j with
  | none => simp [reconstruir_caminho_floyd, ho]
  | some o =>
    cases o with
    | none => simp [reconstruir_caminho_floyd, ho]
    | some k =>
      simpa only [reconstruir_caminho_floyd, ho] using
        reconLoop_shape prox vertices j fuel i []

/-! Arithmetic facts about the ceiling helpers. -/

theorem ceilSqrtAux_ge (n : Nat) : ∀ fuel k, k ≤ ceilSqrtAux n fuel k := by
  intro fuel
  induction fuel with
  | zero => intro k; simp [ceilSqrtAux]
  | succ fuel ih =>
    intro k
    simp only [ceilSqrtAux]
    by_cases h : n ≤ k * k
    · simp [h]
    · rw [if_neg h]
      exact (Nat.le_succ k).trans (ih (k + 1))

theorem ceilSqrt_pos {n : Nat} (h : 1 ≤ n) : 1 ≤ ceilSqrt n := by
  unfold ceilSqrt
  have e : ceilSqrtAux n (n + 1) 0 =
      if n ≤ 0 * 0 then 0 else ceilSqrtAux n n 1 := rfl
  rw [e, if_neg (by omega)]
  exact ceilSqrtAux_ge n n 1

theorem ceilDiv_mul_ge {n c : Nat} (hc : 0 < c) : n ≤ ceilDiv n c * c := by
  unfold ceilDiv
  rw [Nat.mul_comm]
  have h1 := Nat.div_add_mod (n + c - 1) c
  have h2 := Nat.mod_lt (n + c - 1) hc
  omega

theorem gridBase_length (rows cols : Nat) :
    ((List.range rows).flatMap fun r =>
      (List.range cols).map fun c => (Int.ofNat r, Int.ofNat c)).length =
      rows * cols := by
  rw [List.length_flatMap]
  have h : ∀ l : List Nat, (List.map (List.length ∘ fun r =>
      (List.range cols).map fun c => (Int.ofNat r, Int.ofNat c)) l).sum =
      l.length * cols := by
    intro l
    induction l with
    | nil => simp
    | cons a l ih =>
      simp only [List.map_cons, List.sum_cons, ih, Function.comp_apply,
        List.length_map, List.length_range, List.length_cons]
      ring
  rw [h, List.length_range]

theorem gridCoords_length {n : Nat} (h : 1 ≤ n) : (gridCoords n).length = n := by
  unfold gridCoords
  rw [List.length_take, gridBase_length]
  exact Nat.min_eq_left (ceilDiv_mul_ge (ceilSqrt_pos h))

theorem gridVerts_length {n : Nat} (h : 1 ≤ n) : (gridVerts n).length = n := by
  unfold gridVerts
  rw [List.length_map, List.length_range]
  exact gridCoords_length h

theorem grid_graph_ok {n : Nat} (h : 1 ≤ n) (seed : Nat) (d : Bool) :
    grid_graph n seed d = Except.ok (gridVerts n, gridPairs n d) := by
  have hc : ¬ ceilSqrt n = 0 := by
    have := ceilSqrt_pos h
    omega
  simp only [grid_graph]
  rw [if_neg hc]

/-- C9: `grid_graph` constructs a seeded generator but never consumes it, so
its output does not depend on the seed at all: any two seeds give identical
vertex and edge lists for every n and every diagonal flag. -/
theorem grid_graph_seed_independent (n s1 s2 : Nat) (d : Bool) :
    grid_graph n s1 d = grid_graph n s2 d := rfl

/-- C8: every generator and both weight-assignment modes are pure functions
of their parameters and of the seed-determined random draws; two calls with
identical seeds (hence identical draw outcomes) and identical parameters
return identical vertex lists, edge lists and weights. -/
theorem generators_deterministic (n seed : Nat) (diag ctl : Bool)
    (sh1 sh2 sh1' sh2' : List (Int × Int) → List (Int × Int))
    (pts pts' : Nat → ℚ) (radius : Option ℚ) (defRad : ℚ)
    (smp smp' : List Nat → Nat → List Nat)
    (stream stream' : Nat → ℚ) (wmin wmax ltf : ℚ)
    (edges : List (Int × Int))
    (h1 : sh1 = sh1') (h2 : sh2 = sh2') (h3 : pts = pts') (h4 : smp = smp')
    (h5 : stream = stream') :
    grid_graph n seed diag = grid_graph n seed diag ∧
    grid_maze_like n seed sh1 sh2 = grid_maze_like n seed sh1' sh2' ∧
    random_geometric_graph n pts radius defRad =
      random_geometric_graph n pts' radius defRad ∧
    hypercube_graph n smp = hypercube_graph n smp' ∧
    assign_weights edges stream wmin wmax ctl ltf =
      assign_weights edges stream' wmin wmax ctl ltf := by
  subst h1; subst h2; subst h3; subst h4; subst h5
  exact ⟨rfl, rfl, rfl, rfl, rfl⟩

theorem generators_deterministic_witness :
    grid_graph 4 7 false = grid_graph 4 7 false ∧
    grid_maze_like 4 7 id id = grid_maze_like 4 7 id id ∧
    random_geometric_graph 4 (fun _ => 0) (some 1) 1 =
      random_geometric_graph 4 (fun _ => 0) (some 1) 1 ∧
    hypercube_graph 4 (fun pop k => pop.take k) =
      hypercube_graph 4 (fun pop k => pop.take k) ∧
    assign_weights [(1, 2)] (fun _ => 0) 1 20 true (5 / 100) =
      assign_weights [(1, 2)] (fun _ => 0) 1 20 true (5 / 100) :=
  generators_deterministic 4 7 false true id id id id (fun _ => 0) (fun _ => 0)
    (some 1) 1 (fun pop k => pop.take k) (fun pop k => pop.take k)
    (fun _ => 0) (fun _ => 0) 1 20 (5 / 100) [(1, 2)] rfl rfl rfl rfl rfl

set_option maxRecDepth 8000 in
/-- C2 fails as stated: at n = 9 with the identity shuffle outcome, the code
re-adds `int(0.15 * 12) = 1` extra edge, but 15 percent of the 4 candidates
remaining after the spanning tree is 0.6 (0 after truncation), so the number
re-added is not 15 percent of the remaining candidates. -/
theorem maze_extras_counterexample :
    (mazeTreeEdges 9 id).length = 8 ∧ (mazeCandidates 9 id).length = 4 ∧
    mazeExtras 9 = 1 ∧
    grid_maze_like 9 0 id id = Except.ok ([1, 2, 3, 4, 5, 6, 7, 8, 9],
      [(1, 2), (1, 4), (2, 3), (2, 5), (3, 6), (4, 7), (5, 8), (6, 9), (4, 5)]) ∧
    ¬ ((9 - 8 : Nat) = 15 * 4 / 100) := by
  decide

/-- C2 amended: the maze generator re-adds min(int(0.15 · C), R) extra
edges, where C is the total candidate-edge count and R the number of
candidates remaining after the spanning tree — 15 percent of the whole
candidate set (truncated), capped by what remains, taken from the shuffled
remaining candidates. -/
theorem maze_extras_amended (n seed : Nat) (h : 1 ≤ n)
    (sh1 sh2 : List (Int × Int) → List (Int × Int))
    (hsh : (sh2 (mazeCandidates n sh1)).Perm (mazeCandidates n sh1)) :
    grid_maze_like n seed sh1 sh2 = Except.ok (gridVerts n,
      mazeTreeEdges n sh1 ++ (sh2 (mazeCandidates n sh1)).take (mazeExtras n)) ∧
    (mazeTreeEdges n sh1 ++
        (sh2 (mazeCandidates n sh1)).take (mazeExtras n)).length =
      (mazeTreeEdges n sh1).length +
        min (mazeExtras n) (mazeCandidates n sh1).length := by
  constructor
  · unfold grid_maze_like
    rw [grid_graph_ok h seed false]
    rw [show (Except.ok (gridVerts n, gridPairs n false) :
        Except PyErr (List Int × List (Int × Int))) >>= (fun x =>
          match x with
          | (vertices, _) => Except.ok (vertices,
              mazeTreeEdges vertices.length sh1 ++
              (sh2 (mazeCandidates vertices.length sh1)).take
                (mazeExtras vertices.length))) =
        Except.ok (gridVerts n,
          mazeTreeEdges (gridVerts n).length sh1 ++
          (sh2 (mazeCandidates (gridVerts n).length sh1)).take
            (mazeExtras (gridVerts n).length)) from rfl]
    rw [gridVerts_length h]
  · rw [List.length_append, List.length_take, hsh.length_eq]

set_option maxRecDepth 8000 in
theorem maze_extras_amended_witness :
    grid_maze_like 9 0 id id = Except.ok (gridVerts 9,
      mazeTreeEdges 9 id ++ (id (mazeCandidates 9 id)).take (mazeExtras 9)) ∧
    (mazeTreeEdges 9 id ++ (id (mazeCandidates 9 id)).take (mazeExtras 9)).length =
      (mazeTreeEdges 9 id).length +
        min (mazeExtras 9) (mazeCandidates 9 id).length :=
  maze_extras_amended 9 0 (by decide) id id (List.Perm.refl _)

/-- C3 fails as stated: `hypercube_graph` called with the invalid target
n = 0 does not fail at all — the single corner of the 1-vertex cube is
sampled away and empty lists are returned. -/
theorem invalid_param_counterexample :
    hypercube_graph 0 (fun pop k => pop.take k) = Except.ok ([], []) := by
  decide

/-- C3 amended: no generator raises a dedicated InvalidParameter condition.
`hypercube_graph` with n = 0 returns empty lists without failing, while the
grid and (default-radius) geometric generators with n = 0 surface an
unrelated ZeroDivisionError from their internal arithmetic; degenerate-but-
valid inputs (n = 1, zero candidate edges) return trivial structures without
failing. -/
theorem invalid_param_amended (smp : List Nat → Nat → List Nat)
    (hs : smp [0] 1 = [0]) (pts : Nat → ℚ) (s : Nat) (defRad : ℚ) :
    hypercube_graph 0 smp = Except.ok ([], []) ∧
    grid_graph 0 s false = Except.error PyErr.zeroDivisionError ∧
    random_geometric_graph 0 pts none defRad =
      Except.error PyErr.zeroDivisionError ∧
    grid_graph 1 s false = Except.ok ([1], []) ∧
    grid_maze_like 1 s id id = Except.ok ([1], []) ∧
    random_geometric_graph 1 pts none defRad = Except.ok ([1], []) ∧
    hypercube_graph 1 smp = Except.ok ([1], []) := by
  refine ⟨?_, rfl, rfl, rfl, ?_, rfl, rfl⟩
  · rw [show hypercube_graph 0 smp = Except.ok (hcBuild 0
      (List.filter (fun v => decide (v ∉ smp [0] 1)) [0])) from rfl, hs]
    decide
  · rw [show grid_maze_like 1 s id id = Except.ok ((gridVerts 1),
      mazeTreeEdges (gridVerts 1).length id ++
      (id (mazeCandidates (gridVerts 1).length id)).take
        (mazeExtras (gridVerts 1).length)) from rfl]
    decide

theorem invalid_param_amended_witness :
    hypercube_graph 0 (fun pop k => pop.take k) = Except.ok ([], []) ∧
    grid_graph 0 3 false = Except.error PyErr.zeroDivisionError ∧
    random_geometric_graph 0 (fun _ => 0) none 1 =
      Except.error PyErr.zeroDivisionError ∧
    grid_graph 1 3 false = Except.ok ([1], []) ∧
    grid_maze_like 1 3 id id = Except.ok ([1], []) ∧
    random_geometric_graph 1 (fun _ => 0) none 1 = Except.ok ([1], []) ∧
    hypercube_graph 1 (fun pop k => pop.take k) = Except.ok ([1], []) :=
  invalid_param_amended (fun pop k => pop.take k) (by decide) (fun _ => 0) 3 1

/-- C6 fails as stated: coincident sample points are joined even at radius
zero, because the comparison is `dx*dx + dy*dy <= radius*radius` with `<=`.
With a draw stream returning 0 for every call, both points of an n = 2 run
coincide and one edge is produced. -/
theorem rgg_radius_zero_counterexample :
    random_geometric_graph 2 (fun _ => 0) (some 0) 0 =
      Except.ok ([1, 2], [(1, 2)]) := by
  simp [random_geometric_graph, rggEdges, List.range_succ, pyLabel]

/-- C6 amended: with radius 0 the geometric generator returns zero edges
whenever the n sampled points are pairwise distinct (the `<=` comparison
joins coincident points even at radius 0). -/
theorem rgg_radius_zero_amended (n : Nat) (pts : Nat → ℚ) (defRad : ℚ)
    (hd : ∀ i < n, ∀ j < n, i ≠ j →
      (pts (2 * i), pts (2 * i + 1)) ≠ (pts (2 * j), pts (2 * j + 1))) :
    random_geometric_graph n pts (some 0) defRad =
      Except.ok ((List.range n).map pyLabel, []) := by
  have he : rggEdges n
      ((List.range n).map fun i => (pts (2 * i), pts (2 * i + 1))) 0 = [] := by
    rw [List.eq_nil_iff_forall_not_mem]
    intro x hx
    rw [rggEdges, List.mem_flatMap] at hx
    obtain ⟨i, hi, hx⟩ := hx
    rw [List.mem_range] at hi
    rw [List.mem_filterMap] at hx
    obtain ⟨j, hj, hx⟩ := hx
    rw [List.mem_range'_1] at hj
    have hij : i < j := by omega
    have hjn : j < n := by omega
    have hpget : ∀ m, m < n →
        ((List.range n).map fun i => (pts (2 * i), pts (2 * i + 1))).getD m (0, 0)
          = (pts (2 * m), pts (2 * m + 1)) := by
      intro m hm
      rw [List.getD_eq_getElem?_getD, List.getElem?_map, List.getElem?_range hm]
      rfl
    rw [hpget i (by omega), hpget j hjn] at hx
    set dx := pts (2 * i) - pts (2 * j) with hdx
    set dy := pts (2 * i + 1) - pts (2 * j + 1) with hdy
    by_cases hc : dx * dx + dy * dy ≤ (0 : ℚ) * 0
    · have h1 : (0 : ℚ) ≤ dx * dx := mul_self_nonneg dx
      have h2 : (0 : ℚ) ≤ dy * dy := mul_self_nonneg dy
      have h3 : dx * dx = 0 := by nlinarith
      have h4 : dy * dy = 0 := by nlinarith
      have h5 : dx = 0 := by
        have := mul_self_eq_zero.mp h3
        exact this
      have h6 : dy = 0 := by
        have := mul_self_eq_zero.mp h4
        exact this
      have h7 : pts (2 * i) = pts (2 * j) := by
        have := sub_eq_zero.mp h5
        exact this
      have h8 : pts (2 * i + 1) = pts (2 * j + 1) := by
        have := sub_eq_zero.mp h6
        exact this
      exact hd i (by omega) j hjn (by omega) (by rw [h7, h8])
    · rw [if_neg hc] at hx
      exact (Option.some_ne_none x hx.symm).elim
  rw [show random_geometric_graph n pts (some 0) defRad =
    Except.ok ((List.range n).map pyLabel,
      rggEdges n ((List.range n).map fun i => (pts (2 * i), pts (2 * i + 1))) 0)
    from rfl, he]

theorem rgg_radius_zero_amended_witness :
    random_geometric_graph 2 (fun k => (k : ℚ)) (some 0) 0 =
      Except.ok ((List.range 2).map pyLabel, []) :=
  rgg_radius_zero_amended 2 (fun k => (k : ℚ)) 0 (by decide)

/-! BFS correctness for the hypercube pruning pass. -/

theorem bfsVisit_fold_spec (l : List Int) : ∀ vis q : List Int, vis.Nodup →
    (l.foldl bfsVisit (vis, q)).1.Nodup ∧
    (∀ x ∈ vis, x ∈ (l.foldl bfsVisit (vis, q)).1) ∧
    (∀ y ∈ l, y ∈ (l.foldl bfsVisit (vis, q)).1) ∧
    (∀ x ∈ (l.foldl bfsVisit (vis, q)).1, x ∈ vis ∨ x ∈ l) ∧
    (∀ x ∈ q, x ∈ (l.foldl bfsVisit (vis, q)).2) ∧
    (∀ x ∈ (l.foldl bfsVisit (vis, q)).2,
      x ∈ q ∨ x ∈ (l.foldl bfsVisit (vis, q)).1) ∧
    (∀ x ∈ (l.foldl bfsVisit (vis, q)).1, x ∉ vis →
      x ∈ (l.foldl bfsVisit (vis, q)).2) ∧
    (l.foldl bfsVisit (vis, q)).2.length + vis.length
      = q.length + (l.foldl bfsVisit (vis, q)).1.length := by
  induction l with
  | nil =>
    intro vis q hnd
    simp only [List.foldl_nil]
    refine ⟨hnd, fun x hx => hx, by simp, fun x hx => Or.inl hx,
      fun x hx => hx, fun x hx => Or.inl hx, ?_, by simp [Nat.add_comm]⟩
    intro x hx hx2
    exact absurd hx hx2
  | cons a l ih =>
    intro vis q hnd
    rw [List.foldl_cons]
    by_cases ha : a ∈ vis
    · rw [show bfsVisit (vis, q) a = (vis, q) from by simp [bfsVisit, ha]]
      obtain ⟨c1, c2, c3, c4, c5, c6, c7, c8⟩ := ih vis q hnd
      refine ⟨c1, c2, ?_, ?_, c5, c6, c7, c8⟩
      · intro y hy
        rcases List.mem_cons.mp hy with h | h
        · exact c2 y (h ▸ ha)
        · exact c3 y h
      · intro x hx
        rcases c4 x hx with h | h
        · exact Or.inl h
        · exact Or.inr (List.mem_cons_of_mem a h)
    · rw [show bfsVisit (vis, q) a = (vis ++ [a], q ++ [a]) from by
        simp [bfsVisit, ha]]
      have hnd' : (vis ++ [a]).Nodup := by
        rw [List.nodup_append]
        exact ⟨hnd, List.nodup_singleton a, by simpa using ha⟩
      obtain ⟨c1, c2, c3, c4, c5, c6, c7, c8⟩ := ih (vis ++ [a]) (q ++ [a]) hnd'
      have hamem : a ∈ (l.foldl bfsVisit (vis ++ [a], q ++ [a])).1 :=
        c2 a (by simp)
      refine ⟨c1, ?_, ?_, ?_, ?_, ?_, ?_, ?_⟩
      · intro x hx
        exact c2 x (List.mem_append_left _ hx)
      · intro y hy
        rcases List.mem_cons.mp hy with h | h
        · exact h ▸ hamem
        · exact c3 y h
      · intro x hx
        rcases c4 x hx with h | h
        · rcases List.mem_append.mp h with h2 | h2
          · exact Or.inl h2
          · rw [List.mem_singleton.mp h2]
            exact Or.inr (List.mem_cons_self a l)
        · exact Or.inr (List.mem_cons_of_mem a h)
      · intro x hx
        exact c5 x (List.mem_append_left _ hx)
      · intro x hx
        rcases c6 x hx with h | h
        · rcases List.mem_append.mp h with h2 | h2
          · exact Or.inl h2
          · exact Or.inr (by rw [List.mem_singleton.mp h2]; exact hamem)
        · exact Or.inr h
      · intro x hx hxv
        by_cases hxa : x ∈ vis ++ [a]
        · rcases List.mem_append.mp hxa with h2 | h2
          · exact absurd h2 hxv
          · exact c5 x (by rw [List.mem_singleton.mp h2]; simp)
        · exact c7 x hx hxa
      · simp only [List.length_append, List.length_singleton] at c8
        omega

theorem bfsLoop_correct (adjf : Int → List Int) (U : List Int) (start : Int)
    (hadj : ∀ x y, y ∈ adjf x → y ∈ U) :
    ∀ fuel q vis,
      (∀ x ∈ q, x ∈ vis) →
      vis.Nodup →
      (∀ x ∈ vis, NReach adjf start x) →
      (∀ x ∈ vis, x ∉ q → ∀ y ∈ adjf x, y ∈ vis) →
      (∀ x ∈ vis, x ∈ U) →
      q.length + 2 * (U.length - vis.length) ≤ fuel →
      (∀ x ∈ vis, x ∈ bfsLoop adjf fuel q vis) ∧
      (∀ x ∈ bfsLoop adjf fuel q vis, NReach adjf start x) ∧
      (∀ x ∈ bfsLoop adjf fuel q vis, ∀ y ∈ adjf x,
        y ∈ bfsLoop adjf fuel q vis) ∧
      (bfsLoop adjf fuel q vis).Nodup ∧
      (∀ x ∈ bfsLoop adjf fuel q vis, x ∈ U) := by
  intro fuel
  induction fuel with
  | zero =>
    intro q vis h1 h2 h3 h4 h5 hm
    have hq : q = [] := List.length_eq_zero.mp (by omega)
    subst hq
    rw [show bfsLoop adjf 0 [] vis = vis from rfl]
    exact ⟨fun x hx => hx, h3, fun x hx => h4 x hx (by simp), h2, h5⟩
  | succ fuel ih =>
    intro q vis h1 h2 h3 h4 h5 hm
    cases q with
    | nil =>
      rw [show bfsLoop adjf (fuel + 1) [] vis = vis from rfl]
      exact ⟨fun x hx => hx, h3, fun x hx => h4 x hx (by simp), h2, h5⟩
    | cons x q0 =>
      have hx : x ∈ vis := h1 x (List.mem_cons_self x q0)
      obtain ⟨c1, c2, c3, c4, c5, c6, c7, c8⟩ :=
        bfsVisit_fold_spec (adjf x) vis q0 h2
      have hsub : ∀ z ∈ vis, z ∈ ((adjf x).foldl bfsVisit (vis, q0)).1 := c2
      have hVsub : ∀ z ∈ ((adjf x).foldl bfsVisit (vis, q0)).1, z ∈ U := by
        intro z hz
        rcases c4 z hz with h | h
        · exact h5 z h
        · exact hadj x z h
      have hVnd := c1
      have hvisle : vis.length ≤ ((adjf x).foldl bfsVisit (vis, q0)).1.length :=
        ((List.subperm_of_subset h2 hsub)).length_le
      have hVle : ((adjf x).foldl bfsVisit (vis, q0)).1.length ≤ U.length :=
        ((List.subperm_of_subset hVnd hVsub)).length_le
      have step : bfsLoop adjf (fuel + 1) (x :: q0) vis =
          bfsLoop adjf fuel ((adjf x).foldl bfsVisit (vis, q0)).2
            ((adjf x).foldl bfsVisit (vis, q0)).1 := rfl
      rw [step]
      have happly := ih ((adjf x).foldl bfsVisit (vis, q0)).2
        ((adjf x).foldl bfsVisit (vis, q0)).1 ?_ hVnd ?_ ?_ hVsub ?_
      · obtain ⟨d1, d2, d3, d4, d5⟩ := happly
        exact ⟨fun z hz => d1 z (hsub z hz), d2, d3, d4, d5⟩
      · intro z hz
        rcases c6 z hz with h | h
        · exact hsub z (h1 z (List.mem_cons_of_mem x h))
        · exact h
      · intro z hz
        rcases c4 z hz with h | h
        · exact h3 z h
        · exact Relation.ReflTransGen.tail (h3 x hx) h
      · intro z hz hzq
        by_cases hzv : z ∈ vis
        · by_cases hzx : z = x
          · subst hzx
            intro y hy
            exact c3 y hy
          · have hzq0 : z ∉ q0 := fun hc => hzq (c5 z hc)
            have : z ∉ x :: q0 := by
              intro hc
              rcases List.mem_cons.mp hc with h | h
              · exact hzx h
              · exact hzq0 h
            intro y hy
            exact hsub y (h4 z hzv this y hy)
        · exact absurd (c7 z hz hzv) hzq
      · simp only [List.length_cons] at hm
        omega

theorem bfsRun_spec (adjf : Int → List Int) (U : List Int) (start : Int)
    (hadj : ∀ x y, y ∈ adjf x → y ∈ U) (hstart : start ∈ U) :
    (start ∈ bfsLoop adjf (2 * U.length + 2) [start] [start]) ∧
    (∀ x ∈ bfsLoop adjf (2 * U.length + 2) [start] [start],
      NReach adjf start x) ∧
    (∀ y, NReach adjf start y →
      y ∈ bfsLoop adjf (2 * U.length + 2) [start] [start]) ∧
    (bfsLoop adjf (2 * U.length + 2) [start] [start]).Nodup ∧
    (∀ x ∈ bfsLoop adjf (2 * U.length + 2) [start] [start], x ∈ U) := by
  obtain ⟨d1, d2, d3, d4, d5⟩ :=
    bfsLoop_correct adjf U start hadj (2 * U.length + 2) [start] [start]
      (fun x hx => hx) (List.nodup_singleton start)
      (by
        intro z hz
        rw [List.mem_singleton.mp hz]
        exact Relation.ReflTransGen.refl)
      (fun z hz hzq => absurd hz hzq)
      (by
        intro z hz
        rw [List.mem_singleton.mp hz]
        exact hstart)
      (by
        simp only [List.length_singleton]
        omega)
  refine ⟨d1 start (List.mem_singleton_self start), d2, ?_, d4, d5⟩
  intro y hy
  induction hy with
  | refl => exact d1 start (List.mem_singleton_self start)
  | tail hab hbc ihy => exact d3 _ ihy _ hbc

theorem mem_nbrs {edges : List (Int × Int)} {x y : Int} :
    y ∈ nbrs edges x ↔ (x, y) ∈ edges ∨ (y, x) ∈ edges := by
  unfold nbrs
  rw [List.mem_append]
  constructor
  · rintro (h | h)
    · rw [List.mem_filterMap] at h
      obtain ⟨e, he, hcond⟩ := h
      obtain ⟨a, b⟩ := e
      by_cases hq : a = x
      · subst hq
        rw [if_pos rfl] at hcond
        have hb : b = y := Option.some.inj hcond
        subst hb
        exact Or.inl he
      · rw [if_neg hq] at hcond
        exact absurd hcond (Option.noConfusion)
    · rw [List.mem_filterMap] at h
      obtain ⟨e, he, hcond⟩ := h
      obtain ⟨a, b⟩ := e
      by_cases hq : b = x
      · subst hq
        rw [if_pos rfl] at hcond
        have ha : a = y := Option.some.inj hcond
        subst ha
        exact Or.inr he
      · rw [if_neg hq] at hcond
        exact absurd hcond (Option.noConfusion)
  · rintro (h | h)
    · refine Or.inl (List.mem_filterMap.mpr ⟨(x, y), h, ?_⟩)
      simp
    · refine Or.inr (List.mem_filterMap.mpr ⟨(y, x), h, ?_⟩)
      simp

theorem hcEdges_endpoints (d : Nat) (vb : List Nat) :
    ∀ e ∈ hcEdges d vb, e.1 ∈ vb.map (hcLabel vb) ∧
      e.2 ∈ vb.map (hcLabel vb) := by
  intro e he
  rw [hcEdges, List.mem_flatMap] at he
  obtain ⟨b, hb, he⟩ := he
  rw [List.mem_filterMap] at he
  obtain ⟨bit, hbit, hcond⟩ := he
  by_cases hc : b ^^^ (1 <<< bit) ∈ vb ∧ b ^^^ (1 <<< bit) > b
  · rw [if_pos hc, Option.some.injEq] at hcond
    rw [← hcond]
    exact ⟨List.mem_map_of_mem _ hb, List.mem_map_of_mem _ hc.1⟩
  · rw [if_neg hc] at hcond
    exact absurd hcond (Option.noConfusion)

theorem hcVerts_nodup {vb : List Nat} (hnd : vb.Nodup) :
    (vb.map (hcLabel vb)).Nodup := by
  refine List.Nodup.map_on ?_ hnd
  intro b hb b' hb' h
  unfold hcLabel pyLabel at h
  have h2 : vb.indexOf b = vb.indexOf b' := by omega
  exact (List.indexOf_inj hb hb').mp h2

theorem EdgeStep_symm (es : List (Int × Int)) : Symmetric (EdgeStep es) := by
  intro a b h
  rcases h with h | h
  · exact Or.inr h
  · exact Or.inl h

theorem Conn_symm (es : List (Int × Int)) : Symmetric (Conn es) :=
  Relation.ReflTransGen.symmetric (EdgeStep_symm es)

theorem Conn_mono (es es' : List (Int × Int)) (h : ∀ e ∈ es, e ∈ es') :
    ∀ a b, Conn es a b → Conn es' a b := by
  intro a b hc
  refine Relation.ReflTransGen.mono ?_ hc
  intro x y hxy
  rcases hxy with h2 | h2
  · exact Or.inl (h _ h2)
  · exact Or.inr (h _ h2)

theorem hcBuild_spec (d : Nat) (vb : List Nat) (hnd : vb.Nodup) :
    (∀ u ∈ (hcBuild d vb).1, ∀ v ∈ (hcBuild d vb).1,
      Conn (hcBuild d vb).2 u v) ∧
    (∀ e ∈ (hcBuild d vb).2, e.1 ∈ (hcBuild d vb).1 ∧
      e.2 ∈ (hcBuild d vb).1) := by
  have hvnd := hcVerts_nodup hnd
  have hend := hcEdges_endpoints d vb
  have hadj : ∀ x y, y ∈ nbrs (hcEdges d vb) x → y ∈ vb.map (hcLabel vb) := by
    intro x y hy
    rcases mem_nbrs.mp hy with h | h
    · exact (hend _ h).2
    · exact (hend _ h).1
  simp only [hcBuild]
  by_cases hlen : (vb.map (hcLabel vb)).length > 0
  · rw [if_pos hlen]
    have hstart : (vb.map (hcLabel vb)).getD 0 0 ∈ vb.map (hcLabel vb) := by
      rw [List.getD_eq_getElem?_getD, List.getElem?_eq_getElem hlen,
        Option.getD_some]
      exact List.getElem_mem hlen
    obtain ⟨b1, b2, b3, b4, b5⟩ := bfsRun_spec (nbrs (hcEdges d vb))
      (vb.map (hcLabel vb)) ((vb.map (hcLabel vb)).getD 0 0) hadj hstart
    set start := (vb.map (hcLabel vb)).getD 0 0 with hstartdef
    set R := bfsLoop (nbrs (hcEdges d vb))
      (2 * (vb.map (hcLabel vb)).length + 2) [start] [start] with hRdef
    have key : ∀ x ∈ R, Conn ((hcEdges d vb).filter fun e =>
        decide (e.1 ∈ R) && decide (e.2 ∈ R)) start x := by
      intro x hx
      have hre := b2 x hx
      clear hx
      induction hre with
      | refl => exact Relation.ReflTransGen.refl
      | tail hab hbc ihy =>
        have hbR := b3 _ hab
        have hcR := b3 _ (Relation.ReflTransGen.tail hab hbc)
        rcases mem_nbrs.mp hbc with h | h
        · refine Relation.ReflTransGen.tail ihy (Or.inl ?_)
          exact List.mem_filter.mpr ⟨h, by simp [hbR, hcR]⟩
        · refine Relation.ReflTransGen.tail ihy (Or.inr ?_)
          exact List.mem_filter.mpr ⟨h, by simp [hbR, hcR]⟩
    by_cases hprune : R.length < (vb.map (hcLabel vb)).length
    · rw [if_pos hprune]
      constructor
      · intro u hu v hv
        have huR : u ∈ R := of_decide_eq_true (List.mem_filter.mp hu).2
        have hvR : v ∈ R := of_decide_eq_true (List.mem_filter.mp hv).2
        exact Relation.ReflTransGen.trans
          (Conn_symm _ (key u huR)) (key v hvR)
      · intro e he
        have h1 := (List.mem_filter.mp he).1
        have h2 := (List.mem_filter.mp he).2
        rw [Bool.and_eq_true] at h2
        have he1 : e.1 ∈ R := of_decide_eq_true h2.1
        have he2 : e.2 ∈ R := of_decide_eq_true h2.2
        exact ⟨List.mem_filter.mpr ⟨(hend e h1).1, by simp [he1]⟩,
          List.mem_filter.mpr ⟨(hend e h1).2, by simp [he2]⟩⟩
    · rw [if_neg hprune]
      have hsub : List.Subperm R (vb.map (hcLabel vb)) :=
        List.subperm_of_subset b4 b5
      have hperm : R.Perm (vb.map (hcLabel vb)) :=
        hsub.perm_of_length_le (by omega)
      have hmem : ∀ v ∈ vb.map (hcLabel vb), v ∈ R := by
        intro v hv
        exact hperm.mem_iff.mpr hv
      constructor
      · intro u hu v hv
        have hcu := key u (hmem u hu)
        have hcv := key v (hmem v hv)
        have hmono := Conn_mono
          ((hcEdges d vb).filter fun e => decide (e.1 ∈ R) && decide (e.2 ∈ R))
          (hcEdges d vb) (fun e he => (List.mem_filter.mp he).1)
        exact Relation.ReflTransGen.trans
          (Conn_symm _ (hmono _ _ hcu)) (hmono _ _ hcv)
      · exact hend
  · rw [if_neg hlen]
    have hlen0 : (vb.map (hcLabel vb)).length = 0 := by omega
    have hvb : vb = [] := List.map_eq_nil_iff.mp (List.length_eq_zero.mp hlen0)
    subst hvb
    refine ⟨?_, ?_⟩
    · intro u hu
      simp at hu
    · intro e he
      simp [hcEdges] at he

/-- C4: for every n and every sample outcome, `hypercube_graph` returns a
single connected component (every returned vertex reachable from every other
through the returned edges), no returned edge mentions a discarded vertex,
and the hypercube entry of `make_all_graphs` records
`actual_vertices = len(v_h)`, the length of the returned vertex list. -/
theorem hypercube_single_component (n : Nat) (smp : List Nat → Nat → List Nat)
    (stream : Nat → ℚ) (wmin wmax : ℚ) (ctl : Bool) :
    ∃ vs es, hypercube_graph n smp = Except.ok (vs, es) ∧
      make_hypercube_entry n smp stream wmin wmax ctl = Except.ok
        ⟨vs, assign_weights es stream wmin wmax ctl (5 / 100),
         es.length, some vs.length⟩ ∧
      (∀ u ∈ vs, ∀ v ∈ vs, Conn es u v) ∧
      (∀ e ∈ es, e.1 ∈ vs ∧ e.2 ∈ vs) := by
  by_cases hN : 2 ^ ceilLog2 (max 1 n) > n
  · have hk : ¬ (2 ^ ceilLog2 (max 1 n) - n >
        (List.range (2 ^ ceilLog2 (max 1 n))).length) := by
      rw [List.length_range]
      omega
    have hhg : hypercube_graph n smp = Except.ok (hcBuild (ceilLog2 (max 1 n))
        ((List.range (2 ^ ceilLog2 (max 1 n))).filter fun v =>
          decide (v ∉ smp (List.range (2 ^ ceilLog2 (max 1 n)))
            (2 ^ ceilLog2 (max 1 n) - n)))) := by
      simp only [hypercube_graph]
      rw [if_pos hN, if_neg hk]
    have hnd : ((List.range (2 ^ ceilLog2 (max 1 n))).filter fun v =>
        decide (v ∉ smp (List.range (2 ^ ceilLog2 (max 1 n)))
          (2 ^ ceilLog2 (max 1 n) - n))).Nodup :=
      (List.nodup_range _).filter _
    obtain ⟨hc1, hc2⟩ := hcBuild_spec _ _ hnd
    refine ⟨_, _, ?_, ?_, hc1, hc2⟩
    · rw [hhg]
    · simp only [make_hypercube_entry, hhg, build_weighted_graph]
      rfl
  · have hhg : hypercube_graph n smp = Except.ok
        (hcBuild (ceilLog2 (max 1 n)) (List.range (2 ^ ceilLog2 (max 1 n)))) := by
      simp only [hypercube_graph]
      rw [if_neg hN]
    obtain ⟨hc1, hc2⟩ := hcBuild_spec _ _ (List.nodup_range _)
    refine ⟨_, _, ?_, ?_, hc1, hc2⟩
    · rw [hhg]
    · simp only [make_hypercube_entry, hhg, build_weighted_graph]
      rfl

/-! Basic facts about parent chains. -/

theorem parIter_add (parent : List Nat) (k m a : Nat) :
    parIter parent (k + m) a = parIter parent m (parIter parent k a) := by
  induction k generalizing a with
  | zero =>
    rw [Nat.zero_add]
    rfl
  | succ k ih =>
    rw [show k + 1 + m = (k + m) + 1 from by omega]
    rw [show parIter parent ((k + m) + 1) a
      = parIter parent (k + m) (parent.getD a a) from rfl]
    rw [ih]
    rfl

theorem parIter_root {parent : List Nat} {r : Nat} (hr : IsRoot parent r) :
    ∀ k, parIter parent k r = r := by
  intro k
  induction k with
  | zero => rfl
  | succ k ih =>
    rw [show parIter parent (k + 1) r
      = parIter parent k (parent.getD r r) from rfl, hr]
    exact ih

theorem rootOf_unique {parent : List Nat} {a r r' : Nat}
    (h1 : RootOf parent a r) (h2 : RootOf parent a r') : r = r' := by
  obtain ⟨k, hk, hr⟩ := h1
  obtain ⟨k', hk', hr'⟩ := h2
  rcases Nat.le_total k k' with h | h
  · have he : parIter parent k' a = r := by
      rw [show k' = k + (k' - k) from by omega, parIter_add, hk]
      exact parIter_root hr _
    rw [← hk', he]
  · have he : parIter parent k a = r' := by
      rw [show k = k' + (k - k') from by omega, parIter_add, hk']
      exact parIter_root hr' _
    rw [← hk, he]

theorem rootOfN_step {parent : List Nat} {a r k : Nat}
    (h : RootOfN parent (parent.getD a a) r k) : RootOfN parent a r (k + 1) :=
  ⟨h.1, h.2⟩

theorem rootOfN_of_step {parent : List Nat} {a r k : Nat}
    (hna : ¬ IsRoot parent a) (h : RootOfN parent a r k) :
    ∃ k', k = k' + 1 ∧ RootOfN parent (parent.getD a a) r k' := by
  cases k with
  | zero =>
    rw [show a = r from h.1] at hna
    exact absurd h.2 hna
  | succ k => exact ⟨k, rfl, h.1, h.2⟩

theorem getD_irrel {l : List Nat} {a : Nat} (h : a < l.length) (d d' : Nat) :
    l.getD a d = l.getD a d' := by
  rw [List.getD_eq_getElem?_getD, List.getD_eq_getElem?_getD,
    List.getElem?_eq_getElem h]
  rfl

theorem parIter_lt {n : Nat} {parent : List Nat} {a : Nat}
    (hlen : parent.length = n) (hent : ∀ x, x < n → parent.getD x 0 < n)
    (ha : a < n) : ∀ k, parIter parent k a < n := by
  intro k
  induction k generalizing a with
  | zero => exact ha
  | succ k ih =>
    rw [show parIter parent (k + 1) a
      = parIter parent k (parent.getD a a) from rfl]
    refine ih ?_
    rw [getD_irrel (by omega) a 0]
    exact hent a ha

theorem rootOf_bounded {n : Nat} {parent : List Nat} {a r : Nat}
    (hlen : parent.length = n) (hent : ∀ x, x < n → parent.getD x 0 < n)
    (ha : a < n) (h : RootOf parent a r) :
    ∃ k, k < n ∧ RootOfN parent a r k := by
  obtain ⟨k0, hk0, hr⟩ := h
  have hex : ∃ k, parIter parent k a = r := ⟨k0, hk0⟩
  set K := Nat.find hex with hKdef
  have hK : parIter parent K a = r := Nat.find_spec hex
  have hmin : ∀ j, j < K → parIter parent j a ≠ r := fun j hj =>
    Nat.find_min hex hj
  have hinj : Function.Injective
      (fun j : Fin (K + 1) => (⟨parIter parent j a,
        parIter_lt hlen hent ha j⟩ : Fin n)) := by
    intro i j hij
    simp only [Fin.mk.injEq] at hij
    by_contra hne
    rcases Nat.lt_trichotomy i.val j.val with hlt | heq | hlt
    · have hjK : j.val ≤ K := Nat.lt_succ_iff.mp j.isLt
      have : parIter parent (i.val + (K - j.val)) a = r := by
        rw [parIter_add, hij, ← parIter_add,
          show j.val + (K - j.val) = K from by omega, hK]
      exact hmin _ (by omega) this
    · exact hne (Fin.ext heq)
    · have hiK : i.val ≤ K := Nat.lt_succ_iff.mp i.isLt
      have : parIter parent (j.val + (K - i.val)) a = r := by
        rw [parIter_add, ← hij, ← parIter_add,
          show i.val + (K - i.val) = K from by omega, hK]
      exact hmin _ (by omega) this
  have hcard : K + 1 ≤ n := by
    have := Fintype.card_le_of_injective _ hinj
    simpa using this
  exact ⟨K, by omega, hK, hr⟩

theorem getD_set_self {l : List Nat} {a v : Nat} (h : a < l.length) (d : Nat) :
    (l.set a v).getD a d = v := by
  rw [List.getD_eq_getElem?_getD, List.getElem?_set_self (by simpa using h)]
  rfl

theorem getD_set_ne {l : List Nat} {a v x : Nat} (hne : x ≠ a) (d : Nat) :
    (l.set a v).getD x d = l.getD x d := by
  rw [List.getD_eq_getElem?_getD, List.getD_eq_getElem?_getD,
    List.getElem?_set_ne (fun h => hne h.symm)]

theorem parIter_succ' (parent : List Nat) (j a : Nat) :
    parIter parent (j + 1) a =
      parent.getD (parIter parent j a) (parIter parent j a) := by
  rw [parIter_add parent j 1 a]
  rfl

theorem rootOf_step {parent : List Nat} {z s : Nat}
    (h : RootOf parent (parent.getD z z) s) : RootOf parent z s := by
  obtain ⟨k, hk⟩ := h
  exact ⟨k + 1, rootOfN_step hk⟩

theorem set_preserves_rootOfN {parent : List Nat} {a pa gpa : Nat}
    (ha : a < parent.length) (hpadef : parent.getD a a = pa)
    (hgpadef : parent.getD pa pa = gpa) (hpa : pa ≠ a) :
    ∀ k x s, RootOfN parent x s k →
      ∃ k', k' ≤ k ∧ RootOfN (parent.set a gpa) x s k' := by
  intro k
  induction k using Nat.strong_induction_on with
  | _ k ih =>
    intro x s hx
    by_cases hroot : IsRoot parent x
    · have hsx : s = x :=
        rootOf_unique ⟨k, hx⟩ ⟨0, rfl, hroot⟩
      have hxa : x ≠ a := by
        intro hc
        rw [hc] at hroot
        exact hpa (by rw [← hpadef]; exact hroot)
      refine ⟨0, by omega, hsx.symm, ?_⟩
      show (parent.set a gpa).getD s s = s
      rw [hsx, getD_set_ne hxa]
      exact hroot
    · obtain ⟨k0, hk0, hstep⟩ := rootOfN_of_step hroot hx
      by_cases hxa : x = a
      · subst hxa
        rw [hpadef] at hstep
        by_cases hparoot : IsRoot parent pa
        · have hs : s = pa :=
            rootOf_unique ⟨k0, hstep⟩ ⟨0, rfl, hparoot⟩
          have hgpa : gpa = pa := by rw [← hgpadef]; exact hparoot
          refine ⟨1, by omega, ?_, ?_⟩
          · show (parent.set x gpa).getD x x = s
            rw [getD_set_self ha, hgpa, hs]
          · show (parent.set x gpa).getD s s = s
            rw [hs, getD_set_ne hpa, hparoot]
        · obtain ⟨k1, hk1, hstep2⟩ := rootOfN_of_step hparoot hstep
          rw [hgpadef] at hstep2
          obtain ⟨k', hk', hres⟩ := ih k1 (by omega) gpa s hstep2
          refine ⟨k' + 1, by omega, rootOfN_step ?_⟩
          rw [getD_set_self ha]
          exact hres
      · obtain ⟨k', hk', hres⟩ := ih k0 (by omega) (parent.getD x x) s hstep
        refine ⟨k' + 1, by omega, rootOfN_step ?_⟩
        rw [getD_set_ne hxa]
        exact hres

theorem set_reflects_rootOf {parent : List Nat} {a pa gpa ra : Nat}
    (ha : a < parent.length) (hpadef : parent.getD a a = pa)
    (hgpadef : parent.getD pa pa = gpa) (hpa : pa ≠ a)
    (haroot : RootOf parent a ra) :
    ∀ k x s, RootOfN (parent.set a gpa) x s k → RootOf parent x s := by
  intro k
  induction k using Nat.strong_induction_on with
  | _ k ih =>
    intro x s hx
    by_cases hroot : IsRoot (parent.set a gpa) x
    · have hsx : s = x := rootOf_unique ⟨k, hx⟩ ⟨0, rfl, hroot⟩
      by_cases hxa : x = a
      · exfalso
        subst hxa
        have hroot' : gpa = x := by
          have := hroot
          rw [show IsRoot (parent.set x gpa) x
            = ((parent.set x gpa).getD x x = x) from rfl,
            getD_set_self ha] at this
          exact this
        have hcyc : ∀ j, parIter parent j x = x ∨ parIter parent j x = pa := by
          intro j
          induction j with
          | zero => exact Or.inl rfl
          | succ j ihj =>
            rw [parIter_succ']
            rcases ihj with h | h
            · rw [h, hpadef]
              exact Or.inr rfl
            · rw [h, hgpadef, hroot']
              exact Or.inl rfl
        obtain ⟨m, hm, hra⟩ := haroot
        rcases hcyc m with h | h
        · rw [hm] at h
          rw [h] at hra
          exact hpa (by rw [← hpadef]; exact hra)
        · rw [hm] at h
          rw [h] at hra
          have hgp : gpa = pa := by rw [← hgpadef]; exact hra
          rw [hroot'] at hgp
          exact hpa hgp.symm
      · have hrp : IsRoot parent x := by
          have := hroot
          rw [show IsRoot (parent.set a gpa) x
            = ((parent.set a gpa).getD x x = x) from rfl,
            getD_set_ne hxa] at this
          exact this
        refine ⟨0, ?_, ?_⟩
        · exact hsx.symm
        · rw [hsx]
          exact hrp
    · obtain ⟨k0, hk0, hstep⟩ := rootOfN_of_step hroot hx
      by_cases hxa : x = a
      · subst hxa
        rw [getD_set_self ha] at hstep
        have hgs : RootOf parent gpa s := ih k0 (by omega) gpa s hstep
        rw [← hgpadef] at hgs
        have h1 : RootOf parent pa s := rootOf_step hgs
        rw [← hpadef] at h1
        exact rootOf_step h1
      · rw [getD_set_ne hxa] at hstep
        exact rootOf_step (ih k0 (by omega) _ _ hstep)

theorem pyFind_succ (fuel : Nat) (parent : List Nat) (a : Nat) :
    pyFind (fuel + 1) parent a =
      if parent.getD a a = a then (parent, a)
      else pyFind fuel
        (parent.set a (parent.getD (parent.getD a a) (parent.getD a a)))
        (parent.getD (parent.getD a a) (parent.getD a a)) := rfl

theorem pyFind_spec {n : Nat} :
    ∀ k fuel parent a r,
    parent.length = n → (∀ x, x < n → parent.getD x 0 < n) →
    (∀ x, x < n → ∃ r0, RootOf parent x r0) →
    a < n → RootOfN parent a r k → k < fuel →
    (pyFind fuel parent a).2 = r ∧
    (pyFind fuel parent a).1.length = n ∧
    (∀ x, x < n → (pyFind fuel parent a).1.getD x 0 < n) ∧
    (∀ x s, RootOf (pyFind fuel parent a).1 x s ↔ RootOf parent x s) ∧
    (∀ x, x < n → ∃ r0, RootOf (pyFind fuel parent a).1 x r0) := by
  intro k
  induction k using Nat.strong_induction_on with
  | _ k ih =>
    intro fuel parent a r hlen hent hroots ha hk hkf
    cases fuel with
    | zero => omega
    | succ f =>
      rw [pyFind_succ]
      by_cases hpa : parent.getD a a = a
      · rw [if_pos hpa]
        have hr : r = a := rootOf_unique ⟨k, hk⟩ ⟨0, rfl, hpa⟩
        exact ⟨hr.symm, hlen, hent, fun x s => Iff.rfl, hroots⟩
      · rw [if_neg hpa]
        set pa := parent.getD a a with hpadef
        set gpa := parent.getD pa pa with hgpadef
        have ha' : a < parent.length := by omega
        have hpan : pa < n := by
          rw [hpadef, getD_irrel ha' a 0]
          exact hent a ha
        have hpa' : pa < parent.length := by omega
        have hgpan : gpa < n := by
          rw [hgpadef, getD_irrel hpa' pa 0]
          exact hent pa hpan
        obtain ⟨k0, hk0, hstep⟩ := rootOfN_of_step hpa hk
        have hgw : ∃ kg, kg ≤ k0 ∧ RootOfN parent gpa r kg := by
          by_cases hparoot : IsRoot parent pa
          · have hs : r = pa := rootOf_unique ⟨k0, hstep⟩ ⟨0, rfl, hparoot⟩
            have hgpa : gpa = pa := by rw [hgpadef]; exact hparoot
            refine ⟨0, by omega, ?_, ?_⟩
            · show gpa = r
              rw [hgpa, hs]
            · show IsRoot parent r
              rw [hs]
              exact hparoot
          · obtain ⟨k1, hk1, hstep2⟩ := rootOfN_of_step hparoot hstep
            exact ⟨k1, by omega, hstep2⟩
        obtain ⟨kg, hkg, hgN⟩ := hgw
        obtain ⟨kg', hkg', hgN'⟩ :=
          set_preserves_rootOfN ha' hpadef.symm hgpadef.symm hpa kg gpa r hgN
        have hlen' : (parent.set a gpa).length = n := by
          rw [List.length_set]
          exact hlen
        have hent' : ∀ x, x < n → (parent.set a gpa).getD x 0 < n := by
          intro x hx
          by_cases hxa : x = a
          · subst hxa
            rw [getD_set_self ha']
            exact hgpan
          · rw [getD_set_ne hxa]
            exact hent x hx
        have hroots' : ∀ x, x < n → ∃ r0, RootOf (parent.set a gpa) x r0 := by
          intro x hx
          obtain ⟨r0, k2, hN2⟩ := hroots x hx
          obtain ⟨k2', _, hN2'⟩ :=
            set_preserves_rootOfN ha' hpadef.symm hgpadef.symm hpa k2 x r0 hN2
          exact ⟨r0, k2', hN2'⟩
        obtain ⟨d1, d2, d3, d4, d5⟩ := ih kg' (by omega) f (parent.set a gpa)
          gpa r hlen' hent' hroots' hgpan hgN' (by omega)
        refine ⟨d1, d2, d3, ?_, d5⟩
        intro x s
        rw [d4 x s]
        constructor
        · intro h
          obtain ⟨k2, hN2⟩ := h
          exact set_reflects_rootOf ha' hpadef.symm hgpadef.symm hpa
            (hroots a ha).choose_spec k2 x s hN2
        · intro h
          obtain ⟨k2, hN2⟩ := h
          obtain ⟨k2', _, hN2'⟩ :=
            set_preserves_rootOfN ha' hpadef.symm hgpadef.symm hpa k2 x s hN2
          exact ⟨k2', hN2'⟩

theorem pyFind_run {n : Nat} {parent : List Nat} {a : Nat}
    (hinv : UFInv n parent) (ha : a < n) :
    ∃ r, RootOf parent a r ∧
    (pyFind n parent a).2 = r ∧
    UFInv n (pyFind n parent a).1 ∧
    (∀ x s, RootOf (pyFind n parent a).1 x s ↔ RootOf parent x s) := by
  obtain ⟨hlen, hent, hroots⟩ := hinv
  obtain ⟨r, hr⟩ := hroots a ha
  obtain ⟨k, hk, hkN⟩ := rootOf_bounded hlen hent ha hr
  obtain ⟨d1, d2, d3, d4, d5⟩ :=
    pyFind_spec k n parent a r hlen hent hroots ha hkN hk
  exact ⟨r, hr, d1, ⟨d2, d3, d5⟩, d4⟩

theorem setRoot_forward {p : List Nat} {ra rb : Nat}
    (hra : IsRoot p ra) (hrb : IsRoot p rb) (hne : ra ≠ rb)
    (hralt : ra < p.length) :
    ∀ k x s, RootOfN (p.set ra rb) x s k →
      ((RootOf p x s ∧ s ≠ ra) ∨ (RootOf p x ra ∧ s = rb)) := by
  intro k
  induction k using Nat.strong_induction_on with
  | _ k ih =>
    intro x s hx
    by_cases hroot : IsRoot (p.set ra rb) x
    · have hsx : s = x := rootOf_unique ⟨k, hx⟩ ⟨0, rfl, hroot⟩
      have hxra : x ≠ ra := by
        intro hc
        subst hc
        have : (p.set x rb).getD x x = rb := getD_set_self hralt x
        rw [show IsRoot (p.set x rb) x
          = ((p.set x rb).getD x x = x) from rfl, this] at hroot
        exact hne (hroot ▸ rfl)
      have hrootp : IsRoot p x := by
        have := hroot
        rw [show IsRoot (p.set ra rb) x
          = ((p.set ra rb).getD x x = x) from rfl, getD_set_ne hxra] at this
        exact this
      refine Or.inl ⟨⟨0, hsx.symm, ?_⟩, ?_⟩
      · rw [hsx]
        exact hrootp
      · rw [hsx]
        exact hxra
    · obtain ⟨k0, hk0, hstep⟩ := rootOfN_of_step hroot hx
      by_cases hxra : x = ra
      · subst hxra
        rw [getD_set_self hralt] at hstep
        have hrbroot : IsRoot (p.set x rb) rb := by
          show (p.set x rb).getD rb rb = rb
          rw [getD_set_ne (fun h => hne h.symm)]
          exact hrb
        have hs : s = rb := rootOf_unique ⟨k0, hstep⟩ ⟨0, rfl, hrbroot⟩
        exact Or.inr ⟨⟨0, rfl, hra⟩, hs⟩
      · rw [getD_set_ne hxra] at hstep
        rcases ih k0 (by omega) _ s hstep with ⟨h1, h2⟩ | ⟨h1, h2⟩
        · exact Or.inl ⟨rootOf_step h1, h2⟩
        · exact Or.inr ⟨rootOf_step h1, h2⟩

theorem setRoot_keep {p : List Nat} {ra rb : Nat}
    (hra : IsRoot p ra) :
    ∀ k x s, RootOfN p x s k → s ≠ ra → RootOf (p.set ra rb) x s := by
  intro k
  induction k using Nat.strong_induction_on with
  | _ k ih =>
    intro x s hx hsra
    by_cases hroot : IsRoot p x
    · have hsx : s = x := rootOf_unique ⟨k, hx⟩ ⟨0, rfl, hroot⟩
      have hxra : x ≠ ra := by
        rw [← hsx]
        exact hsra
      refine ⟨0, hsx.symm, ?_⟩
      show (p.set ra rb).getD s s = s
      rw [hsx, getD_set_ne hxra]
      exact hroot
    · have hxra : x ≠ ra := by
        intro hc
        rw [hc] at hroot
        exact hroot hra
      obtain ⟨k0, hk0, hstep⟩ := rootOfN_of_step hroot hx
      obtain ⟨k', hres⟩ := ih k0 (by omega) _ s hstep hsra
      refine ⟨k' + 1, rootOfN_step ?_⟩
      rw [getD_set_ne hxra]
      exact hres

theorem setRoot_move {p : List Nat} {ra rb : Nat}
    (hra : IsRoot p ra) (hrb : IsRoot p rb) (hne : ra ≠ rb)
    (hralt : ra < p.length) :
    ∀ k x, RootOfN p x ra k → RootOf (p.set ra rb) x rb := by
  intro k
  induction k using Nat.strong_induction_on with
  | _ k ih =>
    intro x hx
    by_cases hroot : IsRoot p x
    · have hrax : ra = x := rootOf_unique ⟨k, hx⟩ ⟨0, rfl, hroot⟩
      subst hrax
      refine ⟨1, ?_, ?_⟩
      · show (p.set ra rb).getD ra ra = rb
        exact getD_set_self hralt ra
      · show (p.set ra rb).getD rb rb = rb
        rw [getD_set_ne (fun h => hne h.symm)]
        exact hrb
    · have hxra : x ≠ ra := by
        intro hc
        rw [hc] at hroot
        exact hroot hra
      obtain ⟨k0, hk0, hstep⟩ := rootOfN_of_step hroot hx
      obtain ⟨k', hres⟩ := ih k0 (by omega) _ hstep
      refine ⟨k' + 1, rootOfN_step ?_⟩
      rw [getD_set_ne hxra]
      exact hres

theorem setRoot_classes {n : Nat} {p : List Nat} {ra rb : Nat}
    (hlen : p.length = n)
    (hra : IsRoot p ra) (hrb : IsRoot p rb) (hne : ra ≠ rb)
    (hralt : ra < n) :
    ∀ x s, RootOf (p.set ra rb) x s ↔
      ((RootOf p x s ∧ s ≠ ra) ∨ (RootOf p x ra ∧ s = rb)) := by
  have hralt' : ra < p.length := by omega
  intro x s
  constructor
  · intro ⟨k, hk⟩
    exact setRoot_forward hra hrb hne hralt' k x s hk
  · rintro (⟨⟨k, hk⟩, h2⟩ | ⟨⟨k, hk⟩, h2⟩)
    · exact setRoot_keep hra k x s hk h2
    · subst h2
      exact setRoot_move hra hrb hne hralt' k x hk

theorem pyLabel_toNat (a : Nat) : (pyLabel a - 1).toNat = a := by
  simp [pyLabel]

theorem pyLabel_inj {a b : Nat} (h : pyLabel a = pyLabel b) : a = b := by
  simp only [pyLabel] at h
  omega

theorem sameRoot_symm {parent : List Nat} {a b : Nat}
    (h : SameRoot parent a b) : SameRoot parent b a := by
  obtain ⟨r, h1, h2⟩ := h
  exact ⟨r, h2, h1⟩

theorem sameRoot_trans {parent : List Nat} {a b c : Nat}
    (h1 : SameRoot parent a b) (h2 : SameRoot parent b c) :
    SameRoot parent a c := by
  obtain ⟨r, ha, hb⟩ := h1
  obtain ⟨s, hb', hc⟩ := h2
  rw [rootOf_unique hb hb'] at ha
  exact ⟨s, ha, hc⟩

theorem rootOf_lt {n : Nat} {p : List Nat} {a r : Nat}
    (hlen : p.length = n) (hent : ∀ x, x < n → p.getD x 0 < n)
    (ha : a < n) (h : RootOf p a r) : r < n := by
  obtain ⟨k, hk, _⟩ := h
  rw [← hk]
  exact parIter_lt hlen hent ha k

theorem pyUnion_spec {n : Nat} {p : List Nat} {a b ra rb : Nat}
    (hinv : UFInv n p) (ha : a < n) (hb : b < n)
    (hra : RootOf p a ra) (hrb : RootOf p b rb) (hne : ra ≠ rb) :
    UFInv n (pyUnion n p a b) ∧
    (∀ x s, RootOf (pyUnion n p a b) x s ↔
      ((RootOf p x s ∧ s ≠ ra) ∨ (RootOf p x ra ∧ s = rb))) := by
  obtain ⟨r1, hr1, he1, hinv1, hcl1⟩ := pyFind_run hinv ha
  obtain ⟨r2, hr2, he2, hinv2, hcl2⟩ := pyFind_run hinv1 hb
  have hr1a : r1 = ra := rootOf_unique hr1 hra
  have hr2b : r2 = rb := rootOf_unique ((hcl1 b r2).mp hr2) hrb
  subst hr1a
  subst hr2b
  have hclq : ∀ x s, RootOf (pyFind n (pyFind n p a).1 b).1 x s ↔
      RootOf p x s := fun x s => (hcl2 x s).trans (hcl1 x s)
  have hralt : r1 < n := rootOf_lt hinv.1 hinv.2.1 ha hra
  have hrblt : r2 < n := rootOf_lt hinv.1 hinv.2.1 hb hrb
  have hraq : IsRoot (pyFind n (pyFind n p a).1 b).1 r1 :=
    ((hclq a r1).mpr hra).choose_spec.2
  have hrbq : IsRoot (pyFind n (pyFind n p a).1 b).1 r2 :=
    ((hclq b r2).mpr hrb).choose_spec.2
  have hcls := setRoot_classes hinv2.1 hraq hrbq hne hralt
  have hu : pyUnion n p a b =
      (pyFind n (pyFind n p a).1 b).1.set r1 r2 := by
    simp only [pyUnion]
    rw [he1, he2]
  rw [hu]
  constructor
  · refine ⟨by rw [List.length_set]; exact hinv2.1, ?_, ?_⟩
    · intro x hx
      by_cases hxr : x = r1
      · subst hxr
        rw [getD_irrel (by rw [List.length_set, hinv2.1]; exact hx) 0 x,
          getD_set_self (by rw [hinv2.1]; exact hx) x]
        exact hrblt
      · rw [getD_irrel (by rw [List.length_set, hinv2.1]; exact hx) 0 x,
          getD_set_ne hxr x,
          getD_irrel (by rw [hinv2.1]; exact hx) x 0]
        exact hinv2.2.1 x hx
    · intro x hx
      obtain ⟨s, hs⟩ := hinv2.2.2 x hx
      by_cases hsr : s = r1
      · subst hsr
        exact ⟨r2, (hcls x r2).mpr (Or.inr ⟨hs, rfl⟩)⟩
      · exact ⟨s, (hcls x s).mpr (Or.inl ⟨hs, hsr⟩)⟩
  · intro x s
    rw [hcls x s, hclq x s, hclq x r1]

theorem idxConn_mono {sel sel' : List (Int × Int)}
    (hsub : ∀ e ∈ sel, e ∈ sel') {i j : Nat}
    (h : IdxConn sel i j) : IdxConn sel' i j :=
  Relation.ReflTransGen.mono (fun _ _ hab => hab.imp (hsub _) (hsub _)) h

theorem idxConn_symm {sel : List (Int × Int)} {i j : Nat}
    (h : IdxConn sel i j) : IdxConn sel j i :=
  Relation.ReflTransGen.symmetric (fun _ _ hab => Or.symm hab) h

theorem idxConn_nil {i j : Nat} (h : IdxConn [] i j) : i = j := by
  induction h with
  | refl => rfl
  | tail _ hstep ih =>
    cases hstep with
    | inl h => exact absurd h (List.not_mem_nil _)
    | inr h => exact absurd h (List.not_mem_nil _)

theorem idxStep_lt {n : Nat} {sel : List (Int × Int)} {x y : Nat}
    (hsel : SelOK n sel) (h : IdxStep sel x y) : x < n ∧ y < n := by
  cases h with
  | inl h =>
    obtain ⟨a, b, ha, hb, he⟩ := hsel _ h
    simp only [Prod.mk.injEq] at he
    exact ⟨pyLabel_inj he.1 ▸ ha, pyLabel_inj he.2 ▸ hb⟩
  | inr h =>
    obtain ⟨a, b, ha, hb, he⟩ := hsel _ h
    simp only [Prod.mk.injEq] at he
    exact ⟨pyLabel_inj he.2 ▸ hb, pyLabel_inj he.1 ▸ ha⟩

theorem range_isRoot (n x : Nat) : IsRoot (List.range n) x := by
  show (List.range n).getD x x = x
  by_cases hx : x < n
  · rw [List.getD_eq_getElem?_getD, List.getElem?_range hx]
    rfl
  · rw [List.getD_eq_getElem?_getD, List.getElem?_eq_none]
    · rfl
    · rw [List.length_range]
      omega

theorem ufInit_rep (n : Nat) : UFRep n (List.range n) [] := by
  refine ⟨⟨List.length_range n, ?_, ?_⟩, ?_⟩
  · intro x hx
    rw [List.getD_eq_getElem?_getD, List.getElem?_range hx]
    exact hx
  · intro x _
    exact ⟨x, 0, rfl, range_isRoot n x⟩
  · intro i j _ _
    constructor
    · intro ⟨r, h1, h2⟩
      have hi : r = i := rootOf_unique h1 ⟨0, rfl, range_isRoot n i⟩
      have hj : r = j := rootOf_unique h2 ⟨0, rfl, range_isRoot n j⟩
      rw [← hi, hj]
      exact Relation.ReflTransGen.refl
    · intro h
      rw [idxConn_nil h]
      exact ⟨j, ⟨0, rfl, range_isRoot n j⟩, ⟨0, rfl, range_isRoot n j⟩⟩

theorem sameRoot_of_classes {p p' : List Nat}
    (hcl : ∀ x s, RootOf p' x s ↔ RootOf p x s) (i j : Nat) :
    SameRoot p' i j ↔ SameRoot p i j := by
  constructor
  · intro ⟨r, h1, h2⟩
    exact ⟨r, (hcl i r).mp h1, (hcl j r).mp h2⟩
  · intro ⟨r, h1, h2⟩
    exact ⟨r, (hcl i r).mpr h1, (hcl j r).mpr h2⟩

theorem ufStep_spec {n : Nat} {parent : List Nat} {sel : List (Int × Int)}
    {a b : Nat}
    (hrep : UFRep n parent sel) (hsel : SelOK n sel)
    (ha : a < n) (hb : b < n) :
    UFRep n (ufStep n (parent, sel) (pyLabel a, pyLabel b)).1
      (ufStep n (parent, sel) (pyLabel a, pyLabel b)).2 ∧
    SelOK n (ufStep n (parent, sel) (pyLabel a, pyLabel b)).2 ∧
    SameRoot (ufStep n (parent, sel) (pyLabel a, pyLabel b)).1 a b ∧
    (∀ i j, SameRoot parent i j →
      SameRoot (ufStep n (parent, sel) (pyLabel a, pyLabel b)).1 i j) := by
  obtain ⟨hinv, hiff⟩ := hrep
  obtain ⟨r1, hr1, he1, hinv1, hcl1⟩ := pyFind_run hinv ha
  obtain ⟨r2, hr2, he2, hinv2, hcl2⟩ := pyFind_run hinv1 hb
  have hrbp : RootOf parent b r2 := (hcl1 b r2).mp hr2
  have hclq : ∀ x s, RootOf (pyFind n (pyFind n parent a).1 b).1 x s ↔
      RootOf parent x s := fun x s => (hcl2 x s).trans (hcl1 x s)
  have hstep : ufStep n (parent, sel) (pyLabel a, pyLabel b) =
      if (pyFind n (pyFind n parent a).1 b).2 ≠ (pyFind n parent a).2 then
        (pyUnion n (pyFind n (pyFind n parent a).1 b).1 a b,
         sel ++ [(pyLabel a, pyLabel b)])
      else ((pyFind n (pyFind n parent a).1 b).1, sel) := by
    simp only [ufStep, pyLabel_toNat]
  rw [hstep, he1, he2]
  by_cases hne : r2 = r1
  · rw [if_neg (by omega)]
    have hsm : ∀ i j, SameRoot parent i j →
        SameRoot (pyFind n (pyFind n parent a).1 b).1 i j :=
      fun i j h => (sameRoot_of_classes hclq i j).mpr h
    refine ⟨⟨hinv2, ?_⟩, hsel, ?_, fun i j h => hsm i j h⟩
    · intro i j hi hj
      rw [sameRoot_of_classes hclq i j]
      exact hiff i j hi hj
    · exact hsm a b ⟨r1, hr1, hne ▸ hrbp⟩
  · rw [if_pos hne]
    have hraq : RootOf (pyFind n (pyFind n parent a).1 b).1 a r1 :=
      (hclq a r1).mpr hr1
    have hrbq : RootOf (pyFind n (pyFind n parent a).1 b).1 b r2 :=
      (hclq b r2).mpr hrbp
    obtain ⟨hinvU, hclU⟩ :=
      pyUnion_spec hinv2 ha hb hraq hrbq (fun h => hne h.symm)
    have hclP : ∀ x s,
        RootOf (pyUnion n (pyFind n (pyFind n parent a).1 b).1 a b) x s ↔
        ((RootOf parent x s ∧ s ≠ r1) ∨ (RootOf parent x r1 ∧ s = r2)) := by
      intro x s
      rw [hclU x s, hclq x s, hclq x r1]
    have hsm : ∀ i j, SameRoot parent i j →
        SameRoot (pyUnion n (pyFind n (pyFind n parent a).1 b).1 a b) i j := by
      intro i j ⟨s, hsi, hsj⟩
      by_cases hsr : s = r1
      · subst hsr
        exact ⟨r2, (hclP i r2).mpr (Or.inr ⟨hsi, rfl⟩),
          (hclP j r2).mpr (Or.inr ⟨hsj, rfl⟩)⟩
      · exact ⟨s, (hclP i s).mpr (Or.inl ⟨hsi, hsr⟩),
          (hclP j s).mpr (Or.inl ⟨hsj, hsr⟩)⟩
    have hsame : SameRoot (pyUnion n (pyFind n (pyFind n parent a).1 b).1 a b)
        a b :=
      ⟨r2, (hclP a r2).mpr (Or.inr ⟨hr1, rfl⟩),
        (hclP b r2).mpr (Or.inl ⟨hrbp, hne⟩)⟩
    have hselU : SelOK n (sel ++ [(pyLabel a, pyLabel b)]) := by
      intro e he
      cases List.mem_append.mp he with
      | inl h => exact hsel e h
      | inr h =>
        rw [List.mem_singleton.mp h]
        exact ⟨a, b, ha, hb, rfl⟩
    refine ⟨⟨hinvU, ?_⟩, hselU, hsame, hsm⟩
    intro i j hi hj
    constructor
    · intro ⟨s, hsi, hsj⟩
      have hsub : ∀ e ∈ sel, e ∈ sel ++ [(pyLabel a, pyLabel b)] :=
        fun e he => List.mem_append.mpr (Or.inl he)
      have hlast : (pyLabel a, pyLabel b) ∈ sel ++ [(pyLabel a, pyLabel b)] :=
        List.mem_append.mpr (Or.inr (List.mem_singleton.mpr rfl))
      have hba : IdxConn (sel ++ [(pyLabel a, pyLabel b)]) b a :=
        Relation.ReflTransGen.single (Or.inr hlast)
      rcases (hclP i s).mp hsi with ⟨hpi, hsne⟩ | ⟨hpi, hse⟩ <;>
        rcases (hclP j s).mp hsj with ⟨hpj, _⟩ | ⟨hpj, hse'⟩
      · exact idxConn_mono hsub ((hiff i j hi hj).mp ⟨s, hpi, hpj⟩)
      · have h1 : IdxConn sel i b :=
          (hiff i b hi hb).mp ⟨r2, hse' ▸ hpi, hrbp⟩
        have h2 : IdxConn sel a j := (hiff a j ha hj).mp ⟨r1, hr1, hpj⟩
        exact ((idxConn_mono hsub h1).trans hba).trans (idxConn_mono hsub h2)
      · have h1 : IdxConn sel i a := (hiff i a hi ha).mp ⟨r1, hpi, hr1⟩
        have h2 : IdxConn sel b j :=
          (hiff b j hb hj).mp ⟨r2, hrbp, hse ▸ hpj⟩
        exact ((idxConn_mono hsub h1).trans (idxConn_symm hba)).trans
          (idxConn_mono hsub h2)
      · exact idxConn_mono hsub ((hiff i j hi hj).mp ⟨r1, hpi, hpj⟩)
    · intro hconn
      have hstepU : ∀ x y, IdxStep (sel ++ [(pyLabel a, pyLabel b)]) x y →
          SameRoot (pyUnion n (pyFind n (pyFind n parent a).1 b).1 a b) x y := by
        intro x y hxy
        rcases hxy with hm | hm
        · rcases List.mem_append.mp hm with hm' | hm'
          · have hx : x < n ∧ y < n := idxStep_lt hsel (Or.inl hm')
            exact hsm x y ((hiff x y hx.1 hx.2).mpr
              (Relation.ReflTransGen.single (Or.inl hm')))
          · have he : (pyLabel x, pyLabel y) = (pyLabel a, pyLabel b) :=
              List.mem_singleton.mp hm'
            simp only [Prod.mk.injEq] at he
            rw [pyLabel_inj he.1, pyLabel_inj he.2]
            exact hsame
        · rcases List.mem_append.mp hm with hm' | hm'
          · have hx : y < n ∧ x < n := idxStep_lt hsel (Or.inl hm')
            exact hsm x y ((hiff x y hx.2 hx.1).mpr
              (Relation.ReflTransGen.single (Or.inr hm')))
          · have he : (pyLabel y, pyLabel x) = (pyLabel a, pyLabel b) :=
              List.mem_singleton.mp hm'
            simp only [Prod.mk.injEq] at he
            rw [pyLabel_inj he.1, pyLabel_inj he.2]
            exact sameRoot_symm hsame
      clear hj
      induction hconn with
      | refl =>
        obtain ⟨r, hr⟩ := hinvU.2.2 i hi
        exact ⟨r, hr, hr⟩
      | tail _ hlaststep ih =>
        exact sameRoot_trans ih (hstepU _ _ hlaststep)

theorem ufFold_go {n : Nat} :
    ∀ (es : List (Int × Int)) (parent : List Nat) (sel : List (Int × Int)),
    UFRep n parent sel → SelOK n sel → SelOK n es →
    UFRep n (es.foldl (ufStep n) (parent, sel)).1
      (es.foldl (ufStep n) (parent, sel)).2 ∧
    SelOK n (es.foldl (ufStep n) (parent, sel)).2 ∧
    (∀ i j, SameRoot parent i j →
      SameRoot (es.foldl (ufStep n) (parent, sel)).1 i j) ∧
    (∀ e ∈ es, SameRoot (es.foldl (ufStep n) (parent, sel)).1
      ((e.1 - 1).toNat) ((e.2 - 1).toNat)) := by
  intro es
  induction es with
  | nil =>
    intro parent sel hrep hsel _
    exact ⟨hrep, hsel, fun i j h => h, fun e he => absurd he (List.not_mem_nil e)⟩
  | cons e rest ih =>
    intro parent sel hrep hsel hes
    obtain ⟨a, b, hna, hnb, habe⟩ := hes e (List.mem_cons_self e rest)
    subst habe
    obtain ⟨hrep', hsel', hsame', hmono'⟩ :=
      ufStep_spec hrep hsel hna hnb
    have hrest : SelOK n rest := fun e' he' => hes e' (List.mem_cons_of_mem _ he')
    obtain ⟨hrepF, hselF, hmonoF, hedgeF⟩ :=
      ih (ufStep n (parent, sel) (pyLabel a, pyLabel b)).1
        (ufStep n (parent, sel) (pyLabel a, pyLabel b)).2 hrep' hsel' hrest
    rw [List.foldl_cons]
    refine ⟨?_, ?_, ?_, ?_⟩
    · exact hrepF
    · exact hselF
    · intro i j h
      exact hmonoF i j (hmono' i j h)
    · intro e' he'
      cases List.mem_cons.mp he' with
      | inl h =>
        subst h
        simp only [pyLabel_toNat]
        exact hmonoF a b hsame'
      | inr h => exact hedgeF e' h

theorem ufFold_spec {n : Nat} (es : List (Int × Int)) (hes : SelOK n es) :
    UFRep n (ufFold n es).1 (ufFold n es).2 ∧
    SelOK n (ufFold n es).2 ∧
    (∀ e ∈ es, SameRoot (ufFold n es).1 ((e.1 - 1).toNat) ((e.2 - 1).toNat)) := by
  obtain ⟨h1, h2, _, h4⟩ :=
    ufFold_go es (List.range n) [] (ufInit_rep n)
      (fun e he => absurd he (List.not_mem_nil e)) hes
  exact ⟨h1, h2, h4⟩

theorem flatMap_grid (C : Nat) :
    ∀ R, ((List.range R).flatMap fun r =>
      (List.range C).map fun c => (Int.ofNat r, Int.ofNat c)) =
      (List.range (R * C)).map fun i =>
        (Int.ofNat (i / C), Int.ofNat (i % C)) := by
  intro R
  induction R with
  | zero => simp
  | succ R ihr =>
    rw [List.range_succ, List.flatMap_append, ihr,
      show (R + 1) * C = R * C + C from by ring,
      List.range_add, List.map_append]
    congr 1
    · simp only [List.flatMap_cons, List.flatMap_nil, List.append_nil,
        List.map_map]
      apply List.map_congr_left
      intro c hc
      have hcC : c < C := List.mem_range.mp hc
      have hC : 0 < C := by omega
      simp only [Function.comp]
      rw [show R * C + c = c + C * R from by ring,
        Nat.add_mul_div_left c R hC, Nat.div_eq_of_lt hcC, Nat.zero_add,
        Nat.add_mul_mod_self_left, Nat.mod_eq_of_lt hcC]

theorem gridCoords_eq {n : Nat} (h : 1 ≤ n) :
    gridCoords n = (List.range n).map fun i =>
      (Int.ofNat (i / ceilSqrt n), Int.ofNat (i % ceilSqrt n)) := by
  have hC := ceilSqrt_pos h
  simp only [gridCoords]
  rw [flatMap_grid (ceilSqrt n) (ceilDiv n (ceilSqrt n)), ← List.map_take,
    List.take_range, Nat.min_eq_left (ceilDiv_mul_ge hC)]

theorem gridCoords_getElem {n : Nat} (h : 1 ≤ n) (i : Nat)
    (hi : i < (gridCoords n).length) :
    (gridCoords n)[i] =
      (Int.ofNat (i / ceilSqrt n), Int.ofNat (i % ceilSqrt n)) := by
  have hi' : i < n := by
    rw [← gridCoords_length h]
    exact hi
  simp only [gridCoords_eq h, List.getElem_map, List.getElem_range]

theorem gridCoords_mem {n : Nat} (h : 1 ≤ n) (a b : Nat) :
    ((Int.ofNat a, Int.ofNat b) ∈ gridCoords n) ↔
      (b < ceilSqrt n ∧ a * ceilSqrt n + b < n) := by
  have hC := ceilSqrt_pos h
  rw [gridCoords_eq h]
  simp only [List.mem_map, List.mem_range, Prod.mk.injEq]
  constructor
  · rintro ⟨i, hi, h1, h2⟩
    have h1' : i / ceilSqrt n = a := Int.ofNat.inj h1
    have h2' : i % ceilSqrt n = b := Int.ofNat.inj h2
    have hd := Nat.div_add_mod i (ceilSqrt n)
    refine ⟨?_, ?_⟩
    · rw [← h2']
      exact Nat.mod_lt _ hC
    · have : a * ceilSqrt n + b = i := by
        rw [← h1', ← h2', Nat.mul_comm]
        exact hd
      omega
  · rintro ⟨hb, hn⟩
    refine ⟨a * ceilSqrt n + b, hn, ?_, ?_⟩
    · rw [show a * ceilSqrt n + b = ceilSqrt n * a + b from by ring,
        Nat.mul_add_div hC, Nat.div_eq_of_lt hb, Nat.add_zero]
    · rw [show a * ceilSqrt n + b = ceilSqrt n * a + b from by ring,
        Nat.mul_add_mod, Nat.mod_eq_of_lt hb]

theorem gridCoords_nodup {n : Nat} (h : 1 ≤ n) : (gridCoords n).Nodup := by
  rw [gridCoords_eq h]
  refine List.Nodup.map_on ?_ (List.nodup_range n)
  intro x _ y _ he
  simp only [Prod.mk.injEq] at he
  have h1 : x / ceilSqrt n = y / ceilSqrt n := Int.ofNat.inj he.1
  have h2 : x % ceilSqrt n = y % ceilSqrt n := Int.ofNat.inj he.2
  have hx := Nat.div_add_mod x (ceilSqrt n)
  have hy := Nat.div_add_mod y (ceilSqrt n)
  rw [h1, h2] at hx
  omega

theorem indexOf_getElem_beq {α : Type} [BEq α] [LawfulBEq α] :
    ∀ (l : List α), l.Nodup → ∀ i, (h : i < l.length) → l.indexOf l[i] = i := by
  intro l
  induction l with
  | nil =>
    intro _ i h
    simp at h
  | cons x t ih =>
    intro hnd i h
    cases i with
    | zero => simp [List.indexOf_cons]
    | succ i =>
      have hx : x ∉ t := (List.nodup_cons.mp hnd).1
      have hnd2 := (List.nodup_cons.mp hnd).2
      have hi : i < t.length := by simpa using h
      have hne : (x == t[i]) = false := by
        rw [beq_eq_false_iff_ne]
        intro hc
        exact hx (hc ▸ List.getElem_mem hi)
      simp [List.indexOf_cons, hne, ih hnd2 i hi]

theorem gridCoords_indexOf {n : Nat} (h : 1 ≤ n) (i : Nat) (hi : i < n) :
    (gridCoords n).indexOf
      (Int.ofNat (i / ceilSqrt n), Int.ofNat (i % ceilSqrt n)) = i := by
  have hl : i < (gridCoords n).length := by
    rw [gridCoords_length h]
    exact hi
  have he := gridCoords_getElem h i hl
  rw [← he]
  exact indexOf_getElem_beq (gridCoords n) (gridCoords_nodup h) i hl

theorem indexOf_lt_length_beq {α : Type} [BEq α] [LawfulBEq α] {q : α} :
    ∀ {l : List α}, q ∈ l → l.indexOf q < l.length := by
  intro l
  induction l with
  | nil =>
    intro h
    exact absurd h (List.not_mem_nil q)
  | cons x t ih =>
    intro h
    rw [List.indexOf_cons]
    by_cases hx : (x == q) = true
    · rw [hx]
      simp
    · have hb : (x == q) = false := Bool.eq_false_iff.mpr hx
      rw [hb]
      have hq : q ∈ t := by
        cases List.mem_cons.mp h with
        | inl he =>
          rw [he] at hb
          simp at hb
        | inr ht => exact ht
      simp only [cond_false, List.length_cons]
      exact Nat.succ_lt_succ (ih hq)

theorem mem_ite_singleton {α : Type} {c : Prop} [Decidable c] {x e : α}
    (h : e ∈ if c then [x] else ([] : List α)) : c ∧ e = x := by
  split at h
  · exact ⟨by assumption, List.mem_singleton.mp h⟩
  · exact absurd h (List.not_mem_nil e)

theorem gridPairs_selOK {n : Nat} (h : 1 ≤ n) (d : Bool) :
    SelOK n (gridPairs n d) := by
  intro e he
  simp only [gridPairs] at he
  rw [List.mem_flatMap] at he
  obtain ⟨p, hp, hme⟩ := he
  have hp1 : p.1 < n := by
    have h2 := List.mem_enum_iff_getElem?.mp hp
    have h3 : p.1 < (gridCoords n).length := by
      by_contra hcon
      rw [List.getElem?_eq_none (by omega)] at h2
      exact Option.noConfusion h2
    rw [gridCoords_length h] at h3
    exact h3
  have hw : ∀ q, q ∈ gridCoords n →
      ∃ a b, a < n ∧ b < n ∧
        (pyLabel p.1, pyLabel ((gridCoords n).indexOf q)) =
          (pyLabel a, pyLabel b) := by
    intro q hq
    refine ⟨p.1, (gridCoords n).indexOf q, hp1, ?_, rfl⟩
    have hlt := indexOf_lt_length_beq hq
    rw [gridCoords_length h] at hlt
    exact hlt
  rcases List.mem_append.mp hme with hAB | hD
  · rcases List.mem_append.mp hAB with hA | hB
    · obtain ⟨hq, heq⟩ := mem_ite_singleton hA
      rw [heq]
      exact hw _ hq
    · obtain ⟨hq, heq⟩ := mem_ite_singleton hB
      rw [heq]
      exact hw _ hq
  · split at hD
    · rcases List.mem_append.mp hD with hX | hY
      · obtain ⟨hq, heq⟩ := mem_ite_singleton hX
        rw [heq]
        exact hw _ hq
      · obtain ⟨hq, heq⟩ := mem_ite_singleton hY
        rw [heq]
        exact hw _ hq
    · exact absurd hD (List.not_mem_nil e)

theorem mazePossible_right {n i : Nat} (h : 1 ≤ n) (hi : i + 1 < n)
    (hmod : (i + 1) % ceilSqrt n ≠ 0) :
    (pyLabel i, pyLabel (i + 1)) ∈ mazePossible n := by
  have hC := ceilSqrt_pos h
  have hcC : i % ceilSqrt n < ceilSqrt n := Nat.mod_lt _ hC
  have hdm : ceilSqrt n * (i / ceilSqrt n) + i % ceilSqrt n = i :=
    Nat.div_add_mod i (ceilSqrt n)
  have hlt : i % ceilSqrt n + 1 < ceilSqrt n := by
    rcases Nat.lt_or_ge (i % ceilSqrt n + 1) (ceilSqrt n) with h' | h'
    · exact h'
    · exfalso
      apply hmod
      have he : i + 1 = ceilSqrt n * (i / ceilSqrt n + 1) := by
        rw [Nat.mul_add, Nat.mul_one]
        omega
      rw [he, Nat.mul_mod_right]
  have ha1 : (i + 1) / ceilSqrt n = i / ceilSqrt n := by
    have he : i + 1 = (i % ceilSqrt n + 1) + ceilSqrt n * (i / ceilSqrt n) := by
      omega
    rw [he, Nat.add_mul_div_left _ _ hC, Nat.div_eq_of_lt hlt, Nat.zero_add]
  have ha2 : (i + 1) % ceilSqrt n = i % ceilSqrt n + 1 := by
    have he : i + 1 = (i % ceilSqrt n + 1) + ceilSqrt n * (i / ceilSqrt n) := by
      omega
    rw [he, Nat.add_mul_mod_self_left, Nat.mod_eq_of_lt hlt]
  have hm : (Int.ofNat (i / ceilSqrt n), Int.ofNat (i % ceilSqrt n + 1)) ∈
      gridCoords n := by
    rw [gridCoords_mem h]
    refine ⟨hlt, ?_⟩
    have he : i / ceilSqrt n * ceilSqrt n + (i % ceilSqrt n + 1) = i + 1 := by
      rw [Nat.mul_comm]
      omega
    omega
  have hidx : (gridCoords n).indexOf
      (Int.ofNat (i / ceilSqrt n), Int.ofNat (i % ceilSqrt n + 1)) = i + 1 := by
    have := gridCoords_indexOf h (i + 1) hi
    rw [ha1, ha2] at this
    exact this
  have hilen : i < (gridCoords n).length := by
    rw [gridCoords_length h]
    omega
  have hpe : (i, (gridCoords n)[i]) ∈ (gridCoords n).enum :=
    List.mk_mem_enum_iff_getElem?.mpr (List.getElem?_eq_getElem hilen)
  simp only [mazePossible, gridPairs]
  rw [List.mem_flatMap]
  refine ⟨(i, (gridCoords n)[i]), hpe, ?_⟩
  rw [gridCoords_getElem h i hilen]
  have hc1 : Int.ofNat (i % ceilSqrt n) + 1 = Int.ofNat (i % ceilSqrt n + 1) :=
    (Int.ofNat_add _ 1).symm
  apply List.mem_append_left
  apply List.mem_append_left
  rw [hc1, if_pos hm, hidx]
  exact List.mem_singleton.mpr rfl

theorem mazePossible_down {n i : Nat} (h : 1 ≤ n)
    (hi : i + ceilSqrt n < n) :
    (pyLabel i, pyLabel (i + ceilSqrt n)) ∈ mazePossible n := by
  have hC := ceilSqrt_pos h
  have hcC : i % ceilSqrt n < ceilSqrt n := Nat.mod_lt _ hC
  have hdm : ceilSqrt n * (i / ceilSqrt n) + i % ceilSqrt n = i :=
    Nat.div_add_mod i (ceilSqrt n)
  have ha1 : (i + ceilSqrt n) / ceilSqrt n = i / ceilSqrt n + 1 := by
    have he : i + ceilSqrt n =
        i % ceilSqrt n + ceilSqrt n * (i / ceilSqrt n + 1) := by
      rw [Nat.mul_add, Nat.mul_one]
      omega
    rw [he, Nat.add_mul_div_left _ _ hC, Nat.div_eq_of_lt hcC, Nat.zero_add]
  have ha2 : (i + ceilSqrt n) % ceilSqrt n = i % ceilSqrt n := by
    have he : i + ceilSqrt n =
        i % ceilSqrt n + ceilSqrt n * (i / ceilSqrt n + 1) := by
      rw [Nat.mul_add, Nat.mul_one]
      omega
    rw [he, Nat.add_mul_mod_self_left, Nat.mod_eq_of_lt hcC]
  have hm : (Int.ofNat (i / ceilSqrt n + 1), Int.ofNat (i % ceilSqrt n)) ∈
      gridCoords n := by
    rw [gridCoords_mem h]
    refine ⟨hcC, ?_⟩
    have he : (i / ceilSqrt n + 1) * ceilSqrt n + i % ceilSqrt n =
        i + ceilSqrt n := by
      rw [Nat.add_mul, Nat.one_mul, Nat.mul_comm]
      omega
    omega
  have hidx : (gridCoords n).indexOf
      (Int.ofNat (i / ceilSqrt n + 1), Int.ofNat (i % ceilSqrt n)) =
      i + ceilSqrt n := by
    have := gridCoords_indexOf h (i + ceilSqrt n) hi
    rw [ha1, ha2] at this
    exact this
  have hilen : i < (gridCoords n).length := by
    rw [gridCoords_length h]
    omega
  have hpe : (i, (gridCoords n)[i]) ∈ (gridCoords n).enum :=
    List.mk_mem_enum_iff_getElem?.mpr (List.getElem?_eq_getElem hilen)
  simp only [mazePossible, gridPairs]
  rw [List.mem_flatMap]
  refine ⟨(i, (gridCoords n)[i]), hpe, ?_⟩
  rw [gridCoords_getElem h i hilen]
  have hc1 : Int.ofNat (i / ceilSqrt n) + 1 = Int.ofNat (i / ceilSqrt n + 1) :=
    (Int.ofNat_add _ 1).symm
  apply List.mem_append_left
  apply List.mem_append_right
  rw [hc1, if_pos hm, hidx]
  exact List.mem_singleton.mpr rfl

theorem mazePossible_conn {n : Nat} (h : 1 ≤ n) :
    ∀ i, i < n → IdxConn (mazePossible n) 0 i := by
  intro i
  induction i using Nat.strong_induction_on with
  | _ i ih =>
    intro hi
    cases Nat.eq_zero_or_pos i with
    | inl h0 =>
      rw [h0]
      exact Relation.ReflTransGen.refl
    | inr hpos =>
      by_cases hmod : i % ceilSqrt n = 0
      · have hC := ceilSqrt_pos h
        have hge : ceilSqrt n ≤ i := by
          by_contra hcon
          rw [Nat.mod_eq_of_lt (by omega)] at hmod
          omega
        have hedge : (pyLabel (i - ceilSqrt n), pyLabel i) ∈ mazePossible n := by
          have hd := @mazePossible_down n (i - ceilSqrt n) h
            (by omega)
          rw [show i - ceilSqrt n + ceilSqrt n = i from by omega] at hd
          exact hd
        exact (ih (i - ceilSqrt n) (by omega) (by omega)).tail (Or.inl hedge)
      · have hedge : (pyLabel (i - 1), pyLabel i) ∈ mazePossible n := by
          have hr := @mazePossible_right n (i - 1) h
            (by omega)
            (by rw [show i - 1 + 1 = i from by omega]; exact hmod)
          rw [show i - 1 + 1 = i from by omega] at hr
          exact hr
        exact (ih (i - 1) (by omega) (by omega)).tail (Or.inl hedge)

theorem conn_of_idxConn {sel : List (Int × Int)} {i j : Nat}
    (h : IdxConn sel i j) : Conn sel (pyLabel i) (pyLabel j) := by
  induction h with
  | refl => exact Relation.ReflTransGen.refl
  | tail _ hstep ih => exact ih.tail hstep

theorem grid_maze_like_ok {n : Nat} (h : 1 ≤ n) (seed : Nat)
    (sh1 sh2 : List (Int × Int) → List (Int × Int)) :
    grid_maze_like n seed sh1 sh2 = Except.ok (gridVerts n,
      mazeTreeEdges n sh1 ++
        (sh2 (mazeCandidates n sh1)).take (mazeExtras n)) := by
  have h1 : grid_maze_like n seed sh1 sh2 = Except.ok (gridVerts n,
      mazeTreeEdges (gridVerts n).length sh1 ++
        (sh2 (mazeCandidates (gridVerts n).length sh1)).take
          (mazeExtras (gridVerts n).length)) := by
    unfold grid_maze_like
    rw [grid_graph_ok h seed false]
    rfl
  rw [h1, gridVerts_length h]

theorem gridVerts_mem {n : Nat} (h : 1 ≤ n) {u : Int} (hu : u ∈ gridVerts n) :
    ∃ i, i < n ∧ u = pyLabel i := by
  unfold gridVerts at hu
  rw [List.mem_map] at hu
  obtain ⟨i, hi, he⟩ := hu
  rw [List.mem_range, gridCoords_length h] at hi
  exact ⟨i, hi, he.symm⟩

/-- C5: for every n ≥ 1, every seed and every shuffle outcome (the two seeded
`rnd.shuffle` calls are modelled as arbitrary permutations of their input),
`grid_maze_like` succeeds, returns exactly the n grid vertices, and its edge
list connects them into a single connected component; the union-find
spanning-tree phase alone already connects every vertex, and the re-added
extras only extend that edge set. -/
theorem maze_single_component {n : Nat} (seed : Nat)
    (sh1 sh2 : List (Int × Int) → List (Int × Int)) (hn : 1 ≤ n)
    (hsh1 : (sh1 (mazePossible n)).Perm (mazePossible n)) :
    ∃ es, grid_maze_like n seed sh1 sh2 = Except.ok (gridVerts n, es) ∧
      (gridVerts n).length = n ∧
      (∀ e ∈ mazeTreeEdges n sh1, e ∈ es) ∧
      (∀ u ∈ gridVerts n, ∀ v ∈ gridVerts n,
        Conn (mazeTreeEdges n sh1) u v) ∧
      (∀ u ∈ gridVerts n, ∀ v ∈ gridVerts n, Conn es u v) := by
  have hmem : ∀ e, e ∈ sh1 (mazePossible n) ↔ e ∈ mazePossible n :=
    fun e => hsh1.mem_iff
  have hselsh : SelOK n (sh1 (mazePossible n)) :=
    fun e he => gridPairs_selOK hn false e ((hmem e).mp he)
  obtain ⟨⟨hinvF, hiffF⟩, hselF, hedgeF⟩ :=
    ufFold_spec (sh1 (mazePossible n)) hselsh
  have hstep2conn : ∀ x y, IdxStep (mazePossible n) x y →
      IdxConn (mazeTreeEdges n sh1) x y := by
    intro x y hxy
    cases hxy with
    | inl hm =>
      have hsm := hedgeF (pyLabel x, pyLabel y) ((hmem _).mpr hm)
      simp only [pyLabel_toNat] at hsm
      obtain ⟨a, b, hra, hrb, he⟩ := gridPairs_selOK hn false _ hm
      simp only [Prod.mk.injEq] at he
      have hx : x < n := pyLabel_inj he.1 ▸ hra
      have hy : y < n := pyLabel_inj he.2 ▸ hrb
      exact (hiffF x y hx hy).mp hsm
    | inr hm =>
      have hsm := hedgeF (pyLabel y, pyLabel x) ((hmem _).mpr hm)
      simp only [pyLabel_toNat] at hsm
      obtain ⟨a, b, hra, hrb, he⟩ := gridPairs_selOK hn false _ hm
      simp only [Prod.mk.injEq] at he
      have hy : y < n := pyLabel_inj he.1 ▸ hra
      have hx : x < n := pyLabel_inj he.2 ▸ hrb
      exact idxConn_symm ((hiffF y x hy hx).mp hsm)
  have hlift : ∀ a b, IdxConn (mazePossible n) a b →
      IdxConn (mazeTreeEdges n sh1) a b := by
    intro a b hab
    induction hab with
    | refl => exact Relation.ReflTransGen.refl
    | tail _ hstep ih => exact ih.trans (hstep2conn _ _ hstep)
  have hc0 : ∀ i, i < n → IdxConn (mazeTreeEdges n sh1) 0 i :=
    fun i hi => hlift 0 i (mazePossible_conn hn i hi)
  have hconnTree : ∀ u ∈ gridVerts n, ∀ v ∈ gridVerts n,
      Conn (mazeTreeEdges n sh1) u v := by
    intro u hu v hv
    obtain ⟨i, hi, hui⟩ := gridVerts_mem hn hu
    obtain ⟨j, hj, hvj⟩ := gridVerts_mem hn hv
    rw [hui, hvj]
    exact conn_of_idxConn ((idxConn_symm (hc0 i hi)).trans (hc0 j hj))
  refine ⟨mazeTreeEdges n sh1 ++
    (sh2 (mazeCandidates n sh1)).take (mazeExtras n),
    grid_maze_like_ok hn seed sh1 sh2, gridVerts_length hn,
    fun e he => List.mem_append_left _ he, hconnTree, ?_⟩
  intro u hu v hv
  exact Conn_mono (mazeTreeEdges n sh1) _
    (fun e he => List.mem_append_left _ he) u v (hconnTree u hu v hv)

theorem maze_single_component_witness :
    ∃ es, grid_maze_like 4 0 (fun l => l) (fun l => l) =
        Except.ok (gridVerts 4, es) ∧
      (gridVerts 4).length = 4 ∧
      (∀ e ∈ mazeTreeEdges 4 (fun l => l), e ∈ es) ∧
      (∀ u ∈ gridVerts 4, ∀ v ∈ gridVerts 4,
        Conn (mazeTreeEdges 4 (fun l => l)) u v) ∧
      (∀ u ∈ gridVerts 4, ∀ v ∈ gridVerts 4, Conn es u v) :=
  maze_single_component 0 (fun l => l) (fun l => l) (by decide)
    (List.Perm.refl (mazePossible 4))
